import Mathlib

/-!
Shallow embedding of the cache-manager module of the reactive-bible
repository (verse cache with a 500-entry LRU bound, audio cache with
expiry handling), together with proofs about its claimed properties.

JavaScript objects used as string-keyed maps are embedded as association
lists `List (String × α)` whose order is insertion order, matching the
enumeration order of `Object.keys` for non-index string keys.  JavaScript
numbers appearing in time comparisons are embedded as `JsNum`
(an integer or `NaN`), because `parseInt` can produce `NaN`.
-/

namespace BibleCache

/-- A JavaScript number as used for `expiresAt`: either an integer
(milliseconds since epoch) or `NaN` (the result of a failed `parseInt`). -/
inductive JsNum where
  | nan
  | int (n : Int)
deriving DecidableEq, Repr

/-- JavaScript `<` on `JsNum`: any comparison with `NaN` is `false`. -/
def JsNum.lt : JsNum → JsNum → Bool
  | .int a, .int b => decide (a < b)
  | _, _ => false

/-- JavaScript `>` on `JsNum`: any comparison with `NaN` is `false`. -/
def JsNum.gt : JsNum → JsNum → Bool
  | .int a, .int b => decide (b < a)
  | _, _ => false

/-- JavaScript multiplication on `JsNum`: `NaN` is absorbing. -/
def JsNum.mul : JsNum → JsNum → JsNum
  | .int a, .int b => .int (a * b)
  | _, _ => .nan

/-- Property lookup on a JS object embedded as an association list
(`obj[k]`, `undefined` becoming `none`). -/
def objGet {α : Type} (o : List (String × α)) (k : String) : Option α :=
  match o with
  | [] => none
  | (k', v) :: rest => if k' = k then some v else objGet rest k

/-- Property assignment on a JS object (`obj[k] = v`): an existing key keeps
its position in enumeration order, a new key is appended. -/
def objSet {α : Type} (o : List (String × α)) (k : String) (v : α) :
    List (String × α) :=
  match o with
  | [] => [(k, v)]
  | (k', v') :: rest =>
      if k' = k then (k, v) :: rest else (k', v') :: objSet rest k v

/-- Property deletion on a JS object (`delete obj[k]`).  Keys of a JS object
are distinct, so removing the first occurrence is removal of the key. -/
def objDelete {α : Type} (o : List (String × α)) (k : String) :
    List (String × α) :=
  match o with
  | [] => []
  | (k', v') :: rest =>
      if k' = k then rest else (k', v') :: objDelete rest k

/-- Embeds `Object.keys obj`. -/
def objKeys {α : Type} (o : List (String × α)) : List String :=
  o.map Prod.fst

/-- Embeds `s.startsWith pref` of JavaScript, embedded as a character-list prefix
test (both sides of the embedding compare code units left to right). -/
def strStartsWith (s pref : String) : Bool :=
  pref.data.isPrefixOf s.data

/-- Value of a decimal digit character. -/
def digitVal (c : Char) : Nat := c.toNat - 48

/-- Value of a hexadecimal digit character. -/
def hexVal (c : Char) : Nat :=
  if c.isDigit then c.toNat - 48
  else if 'a' ≤ c ∧ c ≤ 'f' then c.toNat - 87
  else c.toNat - 55

def isHexDigit (c : Char) : Bool :=
  c.isDigit ∨ ('a' ≤ c ∧ c ≤ 'f') ∨ ('A' ≤ c ∧ c ≤ 'F')

/-- Leading run of decimal digits, `none` when there is no digit. -/
def leadingNat (cs : List Char) : Option Nat :=
  let ds := cs.takeWhile Char.isDigit
  if ds.isEmpty then none
  else some (ds.foldl (fun a c => a * 10 + digitVal c) 0)

/-- Leading run of hexadecimal digits, `none` when there is no digit. -/
def leadingHexNat (cs : List Char) : Option Nat :=
  let ds := cs.takeWhile isHexDigit
  if ds.isEmpty then none
  else some (ds.foldl (fun a c => a * 16 + hexVal c) 0)

/-- JavaScript's whitespace test for the characters `parseInt` skips:
the WhiteSpace and LineTerminator productions — tab, LF, VT, FF, CR,
space, NBSP, BOM, the Unicode space separators (U+1680, U+2000..U+200A,
U+202F, U+205F, U+3000) and the line/paragraph separators
(U+2028, U+2029). -/
def isJsSpace (c : Char) : Bool :=
  c.toNat = 0x9 ∨ c.toNat = 0xA ∨ c.toNat = 0xB ∨ c.toNat = 0xC
    ∨ c.toNat = 0xD ∨ c.toNat = 0x20 ∨ c.toNat = 0xA0 ∨ c.toNat = 0xFEFF
    ∨ c.toNat = 0x1680 ∨ (0x2000 ≤ c.toNat ∧ c.toNat ≤ 0x200A)
    ∨ c.toNat = 0x2028 ∨ c.toNat = 0x2029 ∨ c.toNat = 0x202F
    ∨ c.toNat = 0x205F ∨ c.toNat = 0x3000

/-- Magnitude part of `parseInt` with no radix argument: an optional
`0x`/`0X` prefix switches to hexadecimal, otherwise the leading decimal
digits are taken and trailing non-digits are ignored. -/
def parseIntMag (cs : List Char) : Option Nat :=
  match cs with
  | '0' :: 'x' :: rest => leadingHexNat rest
  | '0' :: 'X' :: rest => leadingHexNat rest
  | _ => leadingNat cs

/-- JavaScript `parseInt(s)` (radix inferred): skips leading whitespace,
takes an optional sign, then the leading digits; `NaN` when no digit
follows. -/
def parseIntJs (s : String) : JsNum :=
  let cs := s.data.dropWhile isJsSpace
  match cs with
  | '-' :: rest =>
      match parseIntMag rest with
      | none => .nan
      | some n => .int (-(n : Int))
  | '+' :: rest =>
      match parseIntMag rest with
      | none => .nan
      | some n => .int (n : Int)
  | _ =>
      match parseIntMag cs with
      | none => .nan
      | some n => .int (n : Int)

/-! ## Data model (`interface` declarations of the source) -/

/-- The `VerseData` interface of the source: one cached verse record. -/
structure VerseData where
  verse : Int
  text : String
  timestamp : Int
  accessCount : Int
deriving DecidableEq, Repr

/-- The `{ verse, text }` pairs taken and returned by the public verse
operations. -/
structure VersePair where
  verse : Int
  text : String
deriving DecidableEq, Repr

/-- The `VerseCache` interface of the source: a JS object keyed by
`version:book:chapter:verse`. -/
abbrev VerseCache := List (String × VerseData)

/-- The `VerseCacheMetadata` interface of the source. -/
structure VerseCacheMetadata where
  totalVerses : Int
  lruQueue : List String
deriving DecidableEq, Repr

/-- The `AudioData` interface of the source: one cached audio location. -/
structure AudioData where
  audioUrl : String
  expiresAt : JsNum
  duration : Int
  fileSize : Int
deriving DecidableEq, Repr

/-- The `AudioCache` interface of the source: a JS object keyed by
`version:book:chapter`. -/
abbrev AudioCache := List (String × AudioData)

/-- The `MAX_VERSES` constant of the source. -/
def MAX_VERSES : Int := 500

/-- The group key `` `${bibleVersion}:${book}:${chapter}` ``. -/
def groupKey (book : String) (chapter : Int) (bibleVersion : String) :
    String :=
  bibleVersion ++ ":" ++ book ++ ":" ++ toString chapter

/-- The verse key `` `${bibleVersion}:${book}:${chapter}:${verse}` ``. -/
def verseKey (book : String) (chapter : Int) (bibleVersion : String)
    (verse : Int) : String :=
  groupKey book chapter bibleVersion ++ ":" ++ toString verse

/-! ## Sorting

`cachedVerses.sort((a, b) => a.verse - b.verse)` sorts ascending by verse
number.  Within one group the matched keys embed distinct verse numbers, so
the sorted order is unique and an insertion sort embeds the call
faithfully. -/

def insertByVerse (p : VersePair) : List VersePair → List VersePair
  | [] => [p]
  | q :: rest =>
      if p.verse ≤ q.verse then p :: q :: rest else q :: insertByVerse p rest

def sortByVerse (l : List VersePair) : List VersePair :=
  l.foldr insertByVerse []

/-! ## Bounded verse cache, core state transformations

The source functions read the two persisted slots, transform the pair
`(cache, metadata)` in memory, and write the slots back.  The in-memory
transformation is factored out here as a `...Core` function; the
storage-level function below composes it with the slot reads/writes
exactly as the source does. -/

/-- The access-metadata refresh of a hit
(`verseData.accessCount++; verseData.timestamp = Date.now()`). -/
def bump (now : Int) (vd : VerseData) : VerseData :=
  { vd with accessCount := vd.accessCount + 1, timestamp := now }

/-- The LRU requeue of a hit: `splice` the key out of its current position
when present (`indexOf` / `lruIndex > -1`), then `push` it at the tail. -/
def lruMove (q : List String) (k : String) : List String :=
  (if k ∈ q then q.erase k else q) ++ [k]

/-- One iteration of the `Object.keys(cache).forEach` loop of
`getCachedVerses`: on a key matching the group prefix, record the
`{ verse, text }` result, move the key to the tail of the LRU queue, and
bump its access count and timestamp.  The accumulator carries the mutated
`cache`, `metadata`, the `cachedVerses` array and the `foundAny` flag. -/
def gvVisit (pref : String) (now : Int)
    (acc : VerseCache × VerseCacheMetadata × List VersePair × Bool)
    (k : String) : VerseCache × VerseCacheMetadata × List VersePair × Bool :=
  let (cache, md, res, _found) := acc
  if strStartsWith k pref then
    match objGet cache k with
    | none => acc
    | some vd =>
        (objSet cache k (bump now vd),
         { md with lruQueue := lruMove md.lruQueue k },
         res ++ [⟨vd.verse, vd.text⟩],
         true)
  else acc

/-- In-memory part of `getCachedVerses`: returns the sorted result (or
`none` when no key matched) together with the updated cache and metadata.
The loop iterates over the snapshot `Object.keys(cache)`. -/
def getCachedVersesCore (book : String) (chapter : Int)
    (bibleVersion : String) (now : Int) (cache : VerseCache)
    (md : VerseCacheMetadata) :
    Option (List VersePair) × VerseCache × VerseCacheMetadata :=
  let cacheKey := groupKey book chapter bibleVersion
  let st := (objKeys cache).foldl (gvVisit (cacheKey ++ ":") now)
    (cache, md, [], false)
  if st.2.2.2 then (some (sortByVerse st.2.2.1), st.1, st.2.1)
  else (none, cache, md)

/-- The keys popped off the front of the LRU queue by `cacheVerses`
(`metadata.lruQueue.splice(0, versesToRemove)`); empty when the new total
stays within `MAX_VERSES`.  `splice` returns at most the queue's length
many keys. -/
def evictKeys (md : VerseCacheMetadata) (versesToAdd : Int) : List String :=
  if md.totalVerses + versesToAdd > MAX_VERSES then
    md.lruQueue.take (md.totalVerses + versesToAdd - MAX_VERSES).toNat
  else []

/-- Eviction phase of `cacheVerses`: delete the evicted keys' records, drop
them from the queue, and decrement `totalVerses` by `versesToRemove`
(the full amount, even when the queue held fewer keys). -/
def evictPhase (versesToAdd : Int) (cache : VerseCache)
    (md : VerseCacheMetadata) : VerseCache × VerseCacheMetadata :=
  if md.totalVerses + versesToAdd > MAX_VERSES then
    let versesToRemove := md.totalVerses + versesToAdd - MAX_VERSES
    ((md.lruQueue.take versesToRemove.toNat).foldl objDelete cache,
     { totalVerses := md.totalVerses - versesToRemove,
       lruQueue := md.lruQueue.drop versesToRemove.toNat })
  else (cache, md)

/-- One iteration of the `verses.forEach` insertion loop of `cacheVerses`. -/
def cvInsert (book : String) (chapter : Int) (bibleVersion : String)
    (now : Int) (st : VerseCache × VerseCacheMetadata) (v : VersePair) :
    VerseCache × VerseCacheMetadata :=
  let key := verseKey book chapter bibleVersion v.verse
  (objSet st.1 key ⟨v.verse, v.text, now, 1⟩,
   { totalVerses := st.2.totalVerses + 1, lruQueue := st.2.lruQueue ++ [key] })

/-- In-memory part of `cacheVerses`: evict when the batch would push the
total over `MAX_VERSES`, then insert each verse of the batch. -/
def cacheVersesCore (book : String) (chapter : Int) (bibleVersion : String)
    (verses : List VersePair) (now : Int) (cache : VerseCache)
    (md : VerseCacheMetadata) : VerseCache × VerseCacheMetadata :=
  let st := evictPhase (verses.length : Int) cache md
  verses.foldl (cvInsert book chapter bibleVersion now) st

/-! ## Expiring audio cache, core state transformations -/

/-- In-memory part of `getCachedAudioUrl`: result, updated cache, and
whether the mutated mapping was persisted (`setAudioCache` called). -/
def getCachedAudioUrlCore (book : String) (chapter : Int)
    (bibleVersion : String) (now : Int) (cache : AudioCache) :
    Option String × AudioCache × Bool :=
  let cacheKey := groupKey book chapter bibleVersion
  match objGet cache cacheKey with
  | none => (none, cache, false)
  | some audioData =>
      if JsNum.gt (.int now) audioData.expiresAt then
        (none, objDelete cache cacheKey, true)
      else (some audioData.audioUrl, cache, false)

/-- The `expiresAt` computed by `cacheAudioUrl`.  The browser's URL parser
is a platform builtin, so its outcome is a parameter: `none` embeds a
`new URL(...)` constructor throw (the `catch` keeps the default), `some q`
a successful parse with `searchParams.get(\x27Expires\x27) = q`.  The
source guards the override with `if (expiresParam)`, a JS truthiness
test, so an empty-string value keeps the default; a nonempty value goes
through `parseInt(...) * 1000`, which is `NaN` when it has no leading
integer. -/
def computeExpiresAt (now : Int) (urlExpires : Option (Option String)) :
    JsNum :=
  match urlExpires with
  | none => .int (now + 24 * 60 * 60 * 1000)
  | some none => .int (now + 24 * 60 * 60 * 1000)
  | some (some s) =>
      if s = "" then .int (now + 24 * 60 * 60 * 1000)
      else JsNum.mul (parseIntJs s) (.int 1000)

/-- In-memory part of `cacheAudioUrl`: store the record for the group key,
overwriting unconditionally. -/
def cacheAudioUrlCore (book : String) (chapter : Int)
    (bibleVersion : String) (audioUrl : String)
    (urlExpires : Option (Option String)) (now : Int)
    (duration : Int) (fileSize : Int) (cache : AudioCache) : AudioCache :=
  let cacheKey := groupKey book chapter bibleVersion
  objSet cache cacheKey
    ⟨audioUrl, computeExpiresAt now urlExpires, duration, fileSize⟩

/-- One iteration of the `Object.keys(cache).forEach` loop of
`clearExpiredAudioUrls`. -/
def ceVisit (now : Int) (acc : AudioCache × Bool) (k : String) :
    AudioCache × Bool :=
  match objGet acc.1 k with
  | none => acc
  | some ad =>
      if JsNum.lt ad.expiresAt (.int now) then (objDelete acc.1 k, true)
      else acc

/-- In-memory part of `clearExpiredAudioUrls`: the surviving cache and the
`hasChanges` flag that decides whether `setAudioCache` runs. -/
def clearExpiredCore (now : Int) (cache : AudioCache) : AudioCache × Bool :=
  (objKeys cache).foldl (ceVisit now) (cache, false)

/-! ## Persistent storage layer

`localStorage` is embedded as an association list from slot names to slot
contents.  A slot's text either parses (`JSON.parse`) to a value of one of
the three stored shapes, or fails to parse; `corrupt` embeds unreadable or
unparsable slot text.  A `setItem` call can throw (quota exceeded); each
write therefore takes a `Bool` saying whether it succeeds, and a failing
write leaves the store unchanged and raises `StoreError`, which the
`try`/`catch` of the source converts to a silent no-op. -/

/-- Parsed content of one storage slot. -/
inductive StoredVal where
  | corrupt
  | verseVal (c : VerseCache)
  | metaVal (m : VerseCacheMetadata)
  | audioVal (a : AudioCache)
deriving DecidableEq, Repr

/-- The persistent store: slot name to slot content. -/
abbrev Store := List (String × StoredVal)

/-- The error raised inside the `try` blocks of the source. -/
inductive StoreError where
  | readFailure
  | writeFailure
deriving DecidableEq, Repr

def VERSE_CACHE_KEY : String := "bible_verse_cache"
def VERSE_CACHE_METADATA_KEY : String := "bible_verse_cache_metadata"
def AUDIO_CACHE_KEY : String := "bible_audio_cache"

/-- Embeds `localStorage.getItem`; `null` becomes `none`. -/
def getItem (store : Store) (k : String) : Option StoredVal :=
  objGet store k

/-- Embeds `localStorage.setItem` under a success flag: a failing write throws
after changing nothing. -/
def setItem (store : Store) (ok : Bool) (k : String) (v : StoredVal) :
    Except StoreError Store :=
  if ok then .ok (objSet store k v) else .error .writeFailure

/-- Embeds `localStorage.removeItem`. -/
def removeItem (store : Store) (k : String) : Store :=
  objDelete store k

/-- Body of the `try` in `getVerseCache`: absent text gives `{}`, text of
the wrong shape fails to read back as a `VerseCache`. -/
def getVerseCacheE (store : Store) : Except StoreError VerseCache :=
  match getItem store VERSE_CACHE_KEY with
  | none => .ok []
  | some (.verseVal c) => .ok c
  | some _ => .error .readFailure

/-- The exported `getVerseCache`: the `catch` converts a read failure to `{}`. -/
def getVerseCache (store : Store) : VerseCache :=
  match getVerseCacheE store with
  | .ok c => c
  | .error _ => []

/-- Body of the `try` in `getVerseCacheMetadata`. -/
def getVerseCacheMetadataE (store : Store) :
    Except StoreError VerseCacheMetadata :=
  match getItem store VERSE_CACHE_METADATA_KEY with
  | none => .ok ⟨0, []⟩
  | some (.metaVal m) => .ok m
  | some _ => .error .readFailure

/-- The exported `getVerseCacheMetadata`: the `catch` converts a read failure to
`{ totalVerses: 0, lruQueue: [] }`. -/
def getVerseCacheMetadata (store : Store) : VerseCacheMetadata :=
  match getVerseCacheMetadataE store with
  | .ok m => m
  | .error _ => ⟨0, []⟩

/-- Body of the `try` in `setVerseCache`: two consecutive `setItem` calls;
a throw on the first skips the second. -/
def setVerseCacheE (store : Store) (ok1 ok2 : Bool) (cache : VerseCache)
    (md : VerseCacheMetadata) : Except StoreError Store := do
  let s1 ← setItem store ok1 VERSE_CACHE_KEY (.verseVal cache)
  setItem s1 ok2 VERSE_CACHE_METADATA_KEY (.metaVal md)

/-- The exported `setVerseCache`: the `catch` keeps whatever the `try` body wrote before
throwing (the first slot when only the second write failed, nothing when
the first failed). -/
def setVerseCache (store : Store) (ok1 ok2 : Bool) (cache : VerseCache)
    (md : VerseCacheMetadata) : Store :=
  if ok1 then
    let s1 := objSet store VERSE_CACHE_KEY (.verseVal cache)
    if ok2 then objSet s1 VERSE_CACHE_METADATA_KEY (.metaVal md) else s1
  else store

/-- Body of the `try` in `getAudioCache`. -/
def getAudioCacheE (store : Store) : Except StoreError AudioCache :=
  match getItem store AUDIO_CACHE_KEY with
  | none => .ok []
  | some (.audioVal a) => .ok a
  | some _ => .error .readFailure

/-- The exported `getAudioCache`: the `catch` converts a read failure to `{}`. -/
def getAudioCache (store : Store) : AudioCache :=
  match getAudioCacheE store with
  | .ok a => a
  | .error _ => []

/-- The exported `setAudioCache`: a failing write changes nothing (caught, logged). -/
def setAudioCache (store : Store) (ok : Bool) (cache : AudioCache) : Store :=
  if ok then objSet store AUDIO_CACHE_KEY (.audioVal cache) else store

/-! ## Public operations at the storage level -/

/-- The exported `getCachedVerses`: read both slots, run the in-memory transformation,
persist only when some key matched. -/
def getCachedVersesS (store : Store) (ok1 ok2 : Bool) (book : String)
    (chapter : Int) (bibleVersion : String) (now : Int) :
    Option (List VersePair) × Store :=
  let cache := getVerseCache store
  let md := getVerseCacheMetadata store
  let r := getCachedVersesCore book chapter bibleVersion now cache md
  match r.1 with
  | some l => (some l, setVerseCache store ok1 ok2 r.2.1 r.2.2)
  | none => (none, store)

/-- The exported `cacheVerses`: read both slots, evict-then-insert, persist both. -/
def cacheVersesS (store : Store) (ok1 ok2 : Bool) (book : String)
    (chapter : Int) (bibleVersion : String) (verses : List VersePair)
    (now : Int) : Store :=
  let cache := getVerseCache store
  let md := getVerseCacheMetadata store
  let r := cacheVersesCore book chapter bibleVersion verses now cache md
  setVerseCache store ok1 ok2 r.1 r.2

/-- The exported `clearVerseCache`: remove both verse slots. -/
def clearVerseCacheS (store : Store) : Store :=
  removeItem (removeItem store VERSE_CACHE_KEY) VERSE_CACHE_METADATA_KEY

/-- The exported `getCachedAudioUrl`: read the audio slot, apply lazy expiry, persist
the mutated mapping only when an expired record was removed. -/
def getCachedAudioUrlS (store : Store) (ok : Bool) (book : String)
    (chapter : Int) (bibleVersion : String) (now : Int) :
    Option String × Store :=
  let cache := getAudioCache store
  let r := getCachedAudioUrlCore book chapter bibleVersion now cache
  if r.2.2 then (r.1, setAudioCache store ok r.2.1) else (r.1, store)

/-- The exported `cacheAudioUrl`: read the audio slot, store the record, persist. -/
def cacheAudioUrlS (store : Store) (ok : Bool) (book : String)
    (chapter : Int) (bibleVersion : String) (audioUrl : String)
    (urlExpires : Option (Option String)) (now : Int)
    (duration : Int) (fileSize : Int) : Store :=
  let cache := getAudioCache store
  setAudioCache store ok
    (cacheAudioUrlCore book chapter bibleVersion audioUrl urlExpires now
      duration fileSize cache)

/-- The exported `clearAudioCache`: remove the audio slot. -/
def clearAudioCacheS (store : Store) : Store :=
  removeItem store AUDIO_CACHE_KEY

/-- The exported `clearExpiredAudioUrls`: read the audio slot, drop expired records,
persist once only when something was removed. -/
def clearExpiredAudioUrlsS (store : Store) (ok : Bool) (now : Int) : Store :=
  let cache := getAudioCache store
  let r := clearExpiredCore now cache
  if r.2 then setAudioCache store ok r.1 else store

/-- The `{ verse, text }` view of a record. -/
def pairOf (vd : VerseData) : VersePair := ⟨vd.verse, vd.text⟩

/-- The live keys matching a group prefix, in enumeration order. -/
def matchedKeys (cache : VerseCache) (pref : String) : List String :=
  (objKeys cache).filter (fun k => strStartsWith k pref)

/-- The `{ verse, text }` pairs of the records matching a group prefix, in
enumeration order. -/
def matchedPairs (cache : VerseCache) (pref : String) : List VersePair :=
  (cache.filter (fun p => strStartsWith p.1 pref)).map (fun p => pairOf p.2)

/-- The keys generated for a stored batch, in batch order. -/
def newKeys (book : String) (chapter : Int) (bibleVersion : String)
    (verses : List VersePair) : List String :=
  verses.map (fun p => verseKey book chapter bibleVersion p.verse)

/-- The fresh records created for a stored batch. -/
def newEntries (book : String) (chapter : Int) (bibleVersion : String)
    (now : Int) (verses : List VersePair) : VerseCache :=
  verses.map (fun p =>
    (verseKey book chapter bibleVersion p.verse,
     VerseData.mk p.verse p.text now 1))

/-- Whether the record under a key has expired (`cache[key].expiresAt < now`). -/
def isExpiredKey (now : Int) (cache : AudioCache) (k : String) : Bool :=
  match objGet cache k with
  | some ad => JsNum.lt ad.expiresAt (.int now)
  | none => false

/-- A batch of 501 distinct verses, used to exercise a store larger than
the whole capacity. -/
def verses501 : List VersePair :=
  (List.range 501).map (fun i => ⟨(i : Int), "t"⟩)

set_option maxRecDepth 40000

/-- Chapters 1 (two verses) and 10 (one verse) of Genesis, cached. -/
def twoChapterCache : VerseCache :=
  [("KJV:Genesis:1:1", ⟨1, "c1v1", 5, 1⟩),
   ("KJV:Genesis:1:2", ⟨2, "c1v2", 5, 1⟩),
   ("KJV:Genesis:10:1", ⟨1, "c10v1", 6, 1⟩)]

/-- A batch of 500 distinct verses for the eviction witness. -/
def verses500 : List VersePair :=
  (List.range 500).map (fun i => ⟨(i : Int), "t"⟩)

/-- A one-verse state satisfying the invariant. -/
def oneCache : VerseCache := [("KJV:Genesis:1:1", ⟨1, "a", 0, 1⟩)]

/-- Metadata of `oneCache`. -/
def oneMd : VerseCacheMetadata := ⟨1, ["KJV:Genesis:1:1"]⟩

/-- A store holding `oneCache` and `oneMd` in the verse slots. -/
def oneStore : Store :=
  [(VERSE_CACHE_KEY, StoredVal.verseVal oneCache),
   (VERSE_CACHE_METADATA_KEY, StoredVal.metaVal oneMd)]

/-! ## The bounded-cache invariant -/

/-- The bounded-cache invariant of the spec: `totalVerses` equals the
length of `lruQueue`, which equals the number of live verse records; the
queue has no duplicates and is in bijection with the record mapping's keys
(which a JS object keeps distinct); and `totalVerses` is at most 500.
All quantifiers are bounded, so the invariant is decidable on concrete
states. -/
def Inv (cache : VerseCache) (md : VerseCacheMetadata) : Prop :=
  md.totalVerses = (md.lruQueue.length : Int)
  ∧ md.lruQueue.length = cache.length
  ∧ md.lruQueue.Nodup
  ∧ (objKeys cache).Nodup
  ∧ (∀ k ∈ md.lruQueue, k ∈ objKeys cache)
  ∧ (∀ k ∈ objKeys cache, k ∈ md.lruQueue)
  ∧ md.totalVerses ≤ MAX_VERSES

instance (cache : VerseCache) (md : VerseCacheMetadata) :
    Decidable (Inv cache md) := by
  unfold Inv; infer_instance

/-! ## Association-list lemmas (the JS-object operations) -/

@[simp] theorem objKeys_nil {α : Type} :
    objKeys ([] : List (String × α)) = [] := rfl

@[simp] theorem objKeys_cons {α : Type} (p : String × α)
    (o : List (String × α)) : objKeys (p :: o) = p.1 :: objKeys o := rfl

theorem objKeys_append {α : Type} (o o' : List (String × α)) :
    objKeys (o ++ o') = objKeys o ++ objKeys o' := by
  simp [objKeys]

theorem objGet_objSet_self {α : Type} (o : List (String × α)) (k : String)
    (v : α) : objGet (objSet o k v) k = some v := by
  induction o with
  | nil => simp [objSet, objGet]
  | cons p rest ih =>
      by_cases h : p.1 = k <;> simp [objSet, objGet, h, ih]

theorem objGet_objSet_ne {α : Type} (o : List (String × α)) (k k' : String)
    (v : α) (h : k' ≠ k) : objGet (objSet o k v) k' = objGet o k' := by
  induction o with
  | nil => simp [objSet, objGet, Ne.symm h]
  | cons p rest ih =>
      by_cases hp : p.1 = k
      · subst hp; simp [objSet, objGet, Ne.symm h]
      · by_cases hp' : p.1 = k' <;> simp [objSet, objGet, hp, hp', ih, h]

theorem objGet_eq_none_iff {α : Type} (o : List (String × α)) (k : String) :
    objGet o k = none ↔ k ∉ objKeys o := by
  induction o with
  | nil => simp [objGet]
  | cons p rest ih =>
      by_cases h : p.1 = k
      · simp [objGet, h, ih]
      · simp [objGet, h, ih]
        tauto

theorem objGet_isSome_iff {α : Type} (o : List (String × α)) (k : String) :
    (objGet o k).isSome ↔ k ∈ objKeys o := by
  induction o with
  | nil => simp [objGet]
  | cons p rest ih =>
      by_cases h : p.1 = k
      · simp [objGet, h, ih]
      · simp [objGet, h, Ne.symm h, ih]

theorem objKeys_objSet {α : Type} (o : List (String × α)) (k : String)
    (v : α) :
    objKeys (objSet o k v) =
      if k ∈ objKeys o then objKeys o else objKeys o ++ [k] := by
  induction o with
  | nil => simp [objSet]
  | cons p rest ih =>
      by_cases hp : p.1 = k
      · subst hp; simp [objSet]
      · by_cases hm : k ∈ objKeys rest <;>
          simp [objSet, hp, hm, Ne.symm hp, ih]

theorem objKeys_objSet_mem {α : Type} (o : List (String × α)) (k : String)
    (v : α) (h : k ∈ objKeys o) : objKeys (objSet o k v) = objKeys o := by
  simp [objKeys_objSet, h]

theorem objSet_not_mem {α : Type} (o : List (String × α)) (k : String)
    (v : α) (h : k ∉ objKeys o) : objSet o k v = o ++ [(k, v)] := by
  induction o with
  | nil => simp [objSet]
  | cons p rest ih =>
      simp only [objKeys_cons, List.mem_cons] at h
      push_neg at h
      simp [objSet, Ne.symm h.1, ih h.2]

theorem objKeys_objDelete {α : Type} (o : List (String × α)) (k : String) :
    objKeys (objDelete o k) = (objKeys o).erase k := by
  induction o with
  | nil => simp [objDelete]
  | cons p rest ih =>
      by_cases hp : p.1 = k
      · subst hp; simp [objDelete, List.erase_cons]
      · simp [objDelete, List.erase_cons, hp, ih]

theorem objGet_objDelete_ne {α : Type} (o : List (String × α))
    (k k' : String) (h : k' ≠ k) :
    objGet (objDelete o k) k' = objGet o k' := by
  induction o with
  | nil => simp [objDelete]
  | cons p rest ih =>
      by_cases hp : p.1 = k
      · subst hp; simp [objDelete, objGet, Ne.symm h]
      · by_cases hp' : p.1 = k' <;> simp [objDelete, objGet, hp, hp', h, ih]

theorem mem_objKeys_of_objGet {α : Type} {o : List (String × α)}
    {k : String} {v : α} (h : objGet o k = some v) : k ∈ objKeys o := by
  rw [← objGet_isSome_iff, h]; rfl

theorem objGet_of_mem_nodup {α : Type} {o : List (String × α)}
    (hn : (objKeys o).Nodup) {p : String × α} (hp : p ∈ o) :
    objGet o p.1 = some p.2 := by
  induction o with
  | nil => simp at hp
  | cons q rest ih =>
      simp only [objKeys_cons, List.nodup_cons] at hn
      rcases List.mem_cons.mp hp with h | h
      · subst h; simp [objGet]
      · have hne : q.1 ≠ p.1 := by
          intro he
          exact hn.1 (he ▸ (List.mem_map.mpr ⟨p, h, rfl⟩))
        simp [objGet, hne, ih hn.2 h]

/-! ## Bulk deletion and LRU-requeue lemmas -/

theorem deleteAll_objGet_not_mem {α : Type} (ds : List String) :
    ∀ (c : List (String × α)) (k : String), k ∉ ds →
      objGet (ds.foldl objDelete c) k = objGet c k := by
  induction ds with
  | nil => intro c k _; rfl
  | cons d ds ih =>
      intro c k hk
      simp only [List.mem_cons, not_or] at hk
      rw [List.foldl_cons, ih _ k hk.2, objGet_objDelete_ne _ _ _ hk.1]

theorem objKeys_deleteAll {α : Type} (ds : List String) :
    ∀ (c : List (String × α)),
      objKeys (ds.foldl objDelete c) = ds.foldl List.erase (objKeys c) := by
  induction ds with
  | nil => intro c; rfl
  | cons d ds ih =>
      intro c
      rw [List.foldl_cons, List.foldl_cons, ih, objKeys_objDelete]

theorem mem_foldl_erase (ds : List String) :
    ∀ (l : List String), l.Nodup →
      ∀ k, k ∈ ds.foldl List.erase l ↔ k ∈ l ∧ k ∉ ds := by
  induction ds with
  | nil => intro l _ k; simp
  | cons d ds ih =>
      intro l hl k
      rw [List.foldl_cons, ih _ (hl.erase d) k, hl.mem_erase_iff]
      simp only [List.mem_cons, not_or]
      tauto

theorem nodup_foldl_erase (ds : List String) :
    ∀ (l : List String), l.Nodup → (ds.foldl List.erase l).Nodup := by
  induction ds with
  | nil => intro l hl; exact hl
  | cons d ds ih => intro l hl; exact ih _ (hl.erase d)

theorem length_foldl_erase (ds : List String) :
    ∀ (l : List String), l.Nodup → ds.Nodup → (∀ d ∈ ds, d ∈ l) →
      (ds.foldl List.erase l).length = l.length - ds.length := by
  induction ds with
  | nil => intro l _ _ _; simp
  | cons d ds ih =>
      intro l hl hds hsub
      simp only [List.nodup_cons] at hds
      have hd : d ∈ l := hsub d (List.mem_cons_self d ds)
      have hsub' : ∀ m ∈ ds, m ∈ l.erase d := by
        intro m hm
        exact (List.mem_erase_of_ne (by rintro rfl; exact hds.1 hm)).2
          (hsub m (List.mem_cons_of_mem d hm))
      rw [List.foldl_cons, ih _ (hl.erase d) hds.2 hsub',
        List.length_erase_of_mem hd]
      simp only [List.length_cons]
      omega

theorem deleteAll_objGet_mem {α : Type} {ds : List String}
    {c : List (String × α)} {k : String} (hn : (objKeys c).Nodup)
    (hk : k ∈ ds) : objGet (ds.foldl objDelete c) k = none := by
  rw [objGet_eq_none_iff, objKeys_deleteAll]
  intro hmem
  exact ((mem_foldl_erase ds _ hn k).mp hmem).2 hk

theorem moveAll_perm (ms : List String) :
    ∀ (q : List String), (∀ m ∈ ms, m ∈ q) →
      List.Perm (ms.foldl lruMove q) q := by
  induction ms with
  | nil => intro q _; exact List.Perm.refl q
  | cons m ms ih =>
      intro q hq
      have hm : m ∈ q := hq m (List.mem_cons_self m ms)
      have hstep : List.Perm (lruMove q m) q := by
        unfold lruMove
        rw [if_pos hm]
        exact (List.perm_append_singleton m (q.erase m)).trans
          (List.perm_cons_erase hm).symm
      have hq' : ∀ m' ∈ ms, m' ∈ lruMove q m := by
        intro m' hm'
        exact hstep.mem_iff.mpr (hq m' (List.mem_cons_of_mem m hm'))
      exact (ih (lruMove q m) hq').trans hstep

theorem moveAll_eq (ms : List String) :
    ∀ (q : List String), q.Nodup → ms.Nodup → (∀ m ∈ ms, m ∈ q) →
      ms.foldl lruMove q =
        q.filter (fun x => decide (x ∉ ms)) ++ ms := by
  induction ms with
  | nil => intro q _ _ _; simp
  | cons m ms ih =>
      intro q hq hms hsub
      simp only [List.nodup_cons] at hms
      have hm : m ∈ q := hsub m (List.mem_cons_self m ms)
      have hq1 : (lruMove q m).Nodup := by
        unfold lruMove
        rw [if_pos hm]
        refine List.Nodup.append (hq.erase m) (List.nodup_singleton m) ?_
        intro x hx hx'
        rw [List.mem_singleton] at hx'
        subst hx'
        exact (hq.mem_erase_iff.mp hx).1 rfl
      have hsub1 : ∀ m' ∈ ms, m' ∈ lruMove q m := by
        intro m' hm'
        unfold lruMove
        rw [if_pos hm]
        refine List.mem_append_left _ ?_
        exact (List.mem_erase_of_ne (by rintro rfl; exact hms.1 hm')).2
          (hsub m' (List.mem_cons_of_mem m hm'))
      rw [List.foldl_cons, ih (lruMove q m) hq1 hms.2 hsub1]
      unfold lruMove
      rw [if_pos hm, hq.erase_eq_filter m]
      rw [List.filter_append, List.filter_filter]
      have h1 : (List.filter (fun x => decide (x ∉ ms) && (x != m)) q) =
          List.filter (fun x => decide (x ∉ m :: ms)) q := by
        refine List.filter_congr ?_
        intro x _
        by_cases h1 : x = m <;> by_cases h2 : x ∈ ms <;> simp [h1, h2]
      have h2 : List.filter (fun x => decide (x ∉ ms)) [m] = [m] := by
        simp [hms.1]
      rw [h1, h2, List.append_assoc]
      rfl

/-! ## Sorting lemmas -/

theorem insertByVerse_perm (p : VersePair) :
    ∀ (l : List VersePair), List.Perm (insertByVerse p l) (p :: l) := by
  intro l
  induction l with
  | nil => exact List.Perm.refl _
  | cons q rest ih =>
      unfold insertByVerse
      by_cases h : p.verse ≤ q.verse
      · rw [if_pos h]
      · rw [if_neg h]
        exact (List.Perm.cons q ih).trans (List.Perm.swap p q rest)

theorem sortByVerse_perm (l : List VersePair) :
    List.Perm (sortByVerse l) l := by
  induction l with
  | nil => exact List.Perm.refl _
  | cons p rest ih =>
      unfold sortByVerse
      rw [List.foldr_cons]
      exact (insertByVerse_perm p _).trans (List.Perm.cons p ih)

theorem insertByVerse_sorted (p : VersePair) :
    ∀ (l : List VersePair),
      l.Pairwise (fun a b => a.verse ≤ b.verse) →
      (insertByVerse p l).Pairwise (fun a b => a.verse ≤ b.verse) := by
  intro l
  induction l with
  | nil => intro _; simp [insertByVerse]
  | cons q rest ih =>
      intro hs
      rw [List.pairwise_cons] at hs
      unfold insertByVerse
      by_cases h : p.verse ≤ q.verse
      · rw [if_pos h, List.pairwise_cons]
        constructor
        · intro x hx
          rcases List.mem_cons.mp hx with h' | h'
          · subst h'; exact h
          · exact le_trans h (hs.1 x h')
        · rw [List.pairwise_cons]; exact hs
      · rw [if_neg h, List.pairwise_cons]
        constructor
        · intro x hx
          rcases List.mem_cons.mp ((insertByVerse_perm p rest).mem_iff.mp hx)
            with h' | h'
          · subst h'; omega
          · exact hs.1 x h'
        · exact ih hs.2

theorem sortByVerse_sorted (l : List VersePair) :
    (sortByVerse l).Pairwise (fun a b => a.verse ≤ b.verse) := by
  induction l with
  | nil => simp [sortByVerse]
  | cons p rest ih =>
      unfold sortByVerse
      rw [List.foldr_cons]
      exact insertByVerse_sorted p _ ih

/-! ## Characterizing the lookup loop of `getCachedVerses` -/

theorem gvVisit_no_match (pref : String) (now : Int)
    (acc : VerseCache × VerseCacheMetadata × List VersePair × Bool)
    (k : String) (h : strStartsWith k pref = false) :
    gvVisit pref now acc k = acc := by
  rcases acc with ⟨c, md, r, f⟩
  simp [gvVisit, h]

theorem gvVisit_match (pref : String) (now : Int) (c : VerseCache)
    (md : VerseCacheMetadata) (r : List VersePair) (f : Bool) (k : String)
    (vd : VerseData) (h : strStartsWith k pref = true)
    (hv : objGet c k = some vd) :
    gvVisit pref now (c, md, r, f) k =
      (objSet c k (bump now vd),
       { md with lruQueue := lruMove md.lruQueue k },
       r ++ [pairOf vd], true) := by
  simp [gvVisit, h, hv, pairOf]

/-- Full characterization of the `forEach` loop of `getCachedVerses` over a
duplicate-free list of keys that are all live: the loop touches exactly the
prefix-matching keys, requeueing each, bumping each record, and collecting
each `{ verse, text }` pair in visit order. -/
theorem gvFold_spec (pref : String) (now : Int) :
    ∀ (ks : List String) (cache : VerseCache) (md : VerseCacheMetadata)
      (res : List VersePair) (found : Bool),
      ks.Nodup → (∀ k ∈ ks, k ∈ objKeys cache) →
      (let matched := ks.filter (fun k => strStartsWith k pref)
       let st := ks.foldl (gvVisit pref now) (cache, md, res, found)
       st.2.1.lruQueue = matched.foldl lruMove md.lruQueue
       ∧ st.2.1.totalVerses = md.totalVerses
       ∧ st.2.2.2 = (found || !matched.isEmpty)
       ∧ st.2.2.1 = res ++ matched.filterMap
           (fun k => (objGet cache k).map pairOf)
       ∧ objKeys st.1 = objKeys cache
       ∧ (∀ k ∈ matched, objGet st.1 k = (objGet cache k).map (bump now))
       ∧ (∀ k, k ∉ matched → objGet st.1 k = objGet cache k)) := by
  intro ks
  induction ks with
  | nil =>
      intro cache md res found _ _
      simp
  | cons k ks ih =>
      intro cache md res found hn hmem
      rw [List.nodup_cons] at hn
      have hkc : k ∈ objKeys cache := hmem k (List.mem_cons_self k ks)
      by_cases hpf : strStartsWith k pref
      · -- the key matches the group prefix
        obtain ⟨vd, hvd⟩ := Option.isSome_iff_exists.mp
          ((objGet_isSome_iff cache k).mpr hkc)
        have hkeys' : objKeys (objSet cache k (bump now vd)) =
            objKeys cache := objKeys_objSet_mem cache k _ hkc
        have hmem' : ∀ k' ∈ ks, k' ∈ objKeys (objSet cache k (bump now vd)) := by
          intro k' hk'
          rw [hkeys']
          exact hmem k' (List.mem_cons_of_mem k hk')
        have hget' : ∀ k' ∈ ks,
            objGet (objSet cache k (bump now vd)) k' = objGet cache k' := by
          intro k' hk'
          exact objGet_objSet_ne cache k k' _ (by rintro rfl; exact hn.1 hk')
        obtain ⟨ih1, ih2, ih3, ih4, ih5, ih6, ih7⟩ :=
          ih (objSet cache k (bump now vd))
            { md with lruQueue := lruMove md.lruQueue k }
            (res ++ [pairOf vd]) true hn.2 hmem'
        have hstep : List.foldl (gvVisit pref now) (cache, md, res, found)
            (k :: ks) = List.foldl (gvVisit pref now)
              (objSet cache k (bump now vd),
               { md with lruQueue := lruMove md.lruQueue k },
               res ++ [pairOf vd], true) ks := by
          rw [List.foldl_cons, gvVisit_match pref now cache md res found k vd hpf hvd]
        have hmatched : (k :: ks).filter (fun k => strStartsWith k pref) =
            k :: ks.filter (fun k => strStartsWith k pref) :=
          List.filter_cons_of_pos hpf
        simp only [hstep, hmatched]
        refine ⟨?_, ?_, ?_, ?_, ?_, ?_, ?_⟩
        · rw [ih1, List.foldl_cons]
        · rw [ih2]
        · rw [ih3]; simp
        · rw [ih4]
          have hcongr : (ks.filter (fun k => strStartsWith k pref)).filterMap
              (fun k' => (objGet (objSet cache k (bump now vd)) k').map pairOf)
              = (ks.filter (fun k => strStartsWith k pref)).filterMap
              (fun k' => (objGet cache k').map pairOf) := by
            refine List.filterMap_congr ?_
            intro k' hk'
            rw [hget' k' (List.mem_of_mem_filter hk')]
          rw [hcongr, List.filterMap_cons, hvd]
          simp
        · rw [ih5, hkeys']
        · intro k' hk'
          rcases List.mem_cons.mp hk' with h' | h'
          · subst h'
            have hnotm : k' ∉ ks.filter (fun k => strStartsWith k pref) :=
              fun hc => hn.1 (List.mem_of_mem_filter hc)
            rw [ih7 k' hnotm, hvd, objGet_objSet_self]
            rfl
          · rw [ih6 k' h', hget' k' (List.mem_of_mem_filter h')]
        · intro k' hk'
          simp only [List.mem_cons, not_or] at hk'
          rw [ih7 k' hk'.2, objGet_objSet_ne cache k k' _ hk'.1]
      · -- the key does not match: the visit leaves the accumulator unchanged
        have hpf' : strStartsWith k pref = false := by
          simpa using hpf
        have hmatched : (k :: ks).filter (fun k => strStartsWith k pref) =
            ks.filter (fun k => strStartsWith k pref) := by
          simp [List.filter_cons, hpf']
        have hstep : List.foldl (gvVisit pref now) (cache, md, res, found)
            (k :: ks) = List.foldl (gvVisit pref now)
              (cache, md, res, found) ks := by
          rw [List.foldl_cons, gvVisit_no_match pref now _ k hpf']
        obtain ⟨ih1, ih2, ih3, ih4, ih5, ih6, ih7⟩ :=
          ih cache md res found hn.2
            (fun k' hk' => hmem k' (List.mem_cons_of_mem k hk'))
        simp only [hstep, hmatched]
        exact ⟨ih1, ih2, ih3, ih4, ih5, ih6, ih7⟩

/-! ## Specification of `getCachedVersesCore` -/

theorem filterMap_cons_some {α β : Type} (f : α → Option β) (a : α)
    (l : List α) (b : β) (h : f a = some b) :
    (a :: l).filterMap f = b :: l.filterMap f := by
  simp [List.filterMap_cons, h]

theorem matched_filterMap_eq (pref : String) :
    ∀ (cache : VerseCache), (objKeys cache).Nodup →
      (matchedKeys cache pref).filterMap
          (fun k => (objGet cache k).map pairOf) =
        matchedPairs cache pref := by
  intro cache
  induction cache with
  | nil => intro _; rfl
  | cons p rest ih =>
      intro hn
      simp only [objKeys_cons, List.nodup_cons] at hn
      have hcongr : ∀ (ms : List String), (∀ m ∈ ms, m ∈ objKeys rest) →
          ms.filterMap (fun k => (objGet (p :: rest) k).map pairOf) =
            ms.filterMap (fun k => (objGet rest k).map pairOf) := by
        intro ms hms
        refine List.filterMap_congr ?_
        intro k hk
        have : p.1 ≠ k := by rintro rfl; exact hn.1 (hms _ hk)
        simp [objGet, this]
      have hsub : ∀ m ∈ matchedKeys rest pref, m ∈ objKeys rest :=
        fun m hm => List.mem_of_mem_filter hm
      by_cases hp : strStartsWith p.1 pref
      · have hmk : matchedKeys (p :: rest) pref =
            p.1 :: matchedKeys rest pref := by
          unfold matchedKeys
          rw [objKeys_cons]
          simp [List.filter_cons, hp]
        have hmp : matchedPairs (p :: rest) pref =
            pairOf p.2 :: matchedPairs rest pref := by
          unfold matchedPairs
          simp [List.filter_cons, hp]
        have hself : objGet (p :: rest) p.1 = some p.2 := by simp [objGet]
        rw [hmk, hmp,
          filterMap_cons_some _ _ _ _ (by rw [hself]; rfl),
          hcongr _ hsub, ih hn.2]
      · have hp' : strStartsWith p.1 pref = false := by simpa using hp
        have hmk : matchedKeys (p :: rest) pref = matchedKeys rest pref := by
          unfold matchedKeys
          rw [objKeys_cons]
          simp [List.filter_cons, hp']
        have hmp : matchedPairs (p :: rest) pref = matchedPairs rest pref := by
          unfold matchedPairs
          simp [List.filter_cons, hp']
        rw [hmk, hmp, hcongr _ hsub, ih hn.2]

/-- Behaviour of the in-memory part of `getCachedVerses` on any state whose
record keys are distinct (as JS object keys always are): miss exactly when
no key matches; on a hit, the sorted matched pairs are returned, every
matched key is requeued at the tail, every matched record is bumped, and
nothing else changes. -/
theorem getCachedVersesCore_spec (book : String) (chapter : Int)
    (bibleVersion : String) (now : Int) (cache : VerseCache)
    (md : VerseCacheMetadata) (hn : (objKeys cache).Nodup) :
    let pref := groupKey book chapter bibleVersion ++ ":"
    let r := getCachedVersesCore book chapter bibleVersion now cache md
    (r.1 = none ↔ matchedKeys cache pref = [])
    ∧ (matchedKeys cache pref = [] → r = (none, cache, md))
    ∧ (matchedKeys cache pref ≠ [] →
        r.1 = some (sortByVerse (matchedPairs cache pref))
        ∧ r.2.2.lruQueue =
            (matchedKeys cache pref).foldl lruMove md.lruQueue
        ∧ r.2.2.totalVerses = md.totalVerses
        ∧ objKeys r.2.1 = objKeys cache
        ∧ (∀ k ∈ matchedKeys cache pref,
            objGet r.2.1 k = (objGet cache k).map (bump now))
        ∧ (∀ k, k ∉ matchedKeys cache pref →
            objGet r.2.1 k = objGet cache k)) := by
  intro pref r
  obtain ⟨h1, h2, h3, h4, h5, h6, h7⟩ :=
    gvFold_spec pref now (objKeys cache) cache md [] false hn
      (fun k hk => hk)
  have hr : r = (if ((objKeys cache).foldl (gvVisit pref now)
        (cache, md, [], false)).2.2.2 then
      (some (sortByVerse ((objKeys cache).foldl (gvVisit pref now)
        (cache, md, [], false)).2.2.1),
       ((objKeys cache).foldl (gvVisit pref now) (cache, md, [], false)).1,
       ((objKeys cache).foldl (gvVisit pref now) (cache, md, [], false)).2.1)
    else (none, cache, md)) := rfl
  rw [h3] at hr
  simp only [Bool.false_or] at hr
  have hMK : (objKeys cache).filter (fun k => strStartsWith k pref) =
      matchedKeys cache pref := rfl
  rw [hMK] at hr
  by_cases hm : matchedKeys cache pref = []
  · have hie : ((matchedKeys cache pref).isEmpty) = true := by
      rw [hm]; rfl
    rw [hie] at hr
    simp only [Bool.not_true, if_false] at hr
    refine ⟨?_, fun _ => hr, fun hc => absurd hm hc⟩
    rw [hr]
    simp [hm]
  · have hie : ((matchedKeys cache pref).isEmpty) = false := by
      rcases hl : matchedKeys cache pref with _ | ⟨a, l⟩
      · exact absurd hl hm
      · rfl
    rw [hie] at hr
    simp only [Bool.not_false, if_true] at hr
    rw [h4, List.nil_append, hMK,
      matched_filterMap_eq pref cache hn] at hr
    refine ⟨?_, fun hc => absurd hc hm, fun _ => ?_⟩
    · rw [hr]; simp [hm]
    · rw [hr]
      exact ⟨rfl, h1, h2, h5, h6, h7⟩

/-- Lookup (`getCachedVerses`) preserves the bounded-cache invariant. -/
theorem getCachedVersesCore_inv (book : String) (chapter : Int)
    (bibleVersion : String) (now : Int) (cache : VerseCache)
    (md : VerseCacheMetadata) (hInv : Inv cache md) :
    Inv (getCachedVersesCore book chapter bibleVersion now cache md).2.1
        (getCachedVersesCore book chapter bibleVersion now cache md).2.2 := by
  obtain ⟨h1, h2, h3, h4, h5, h6, h7⟩ := hInv
  obtain ⟨s1, s2, s3⟩ :=
    getCachedVersesCore_spec book chapter bibleVersion now cache md h4
  by_cases hm : matchedKeys cache (groupKey book chapter bibleVersion ++ ":")
      = []
  · rw [s2 hm]
    exact ⟨h1, h2, h3, h4, h5, h6, h7⟩
  · obtain ⟨_, q1, q2, q3, _, _⟩ := s3 hm
    have hsubq : ∀ m ∈ matchedKeys cache
        (groupKey book chapter bibleVersion ++ ":"), m ∈ md.lruQueue :=
      fun m hm' => h6 m (List.mem_of_mem_filter hm')
    have hperm : List.Perm ((matchedKeys cache
        (groupKey book chapter bibleVersion ++ ":")).foldl lruMove
          md.lruQueue) md.lruQueue :=
      moveAll_perm _ md.lruQueue hsubq
    rw [← q1] at hperm
    have hlen : ((getCachedVersesCore book chapter bibleVersion now cache
        md).2.1).length = cache.length := by
      have := congrArg List.length q3
      simpa [objKeys] using this
    refine ⟨?_, ?_, ?_, ?_, ?_, ?_, ?_⟩
    · rw [q2, hperm.length_eq]; exact h1
    · rw [hperm.length_eq, hlen]; exact h2
    · exact hperm.nodup_iff.mpr h3
    · rw [q3]; exact h4
    · intro k hk
      rw [q3]
      exact h5 k (hperm.mem_iff.mp hk)
    · intro k hk
      rw [q3] at hk
      exact hperm.mem_iff.mpr (h6 k hk)
    · rw [q2]; exact h7

/-! ## Specification of `cacheVersesCore` -/

theorem objKeys_newEntries (book : String) (chapter : Int)
    (bibleVersion : String) (now : Int) (verses : List VersePair) :
    objKeys (newEntries book chapter bibleVersion now verses) =
      newKeys book chapter bibleVersion verses := by
  unfold newEntries newKeys objKeys
  rw [List.map_map]
  rfl

/-- The metadata component of the insertion loop: `totalVerses` goes up by
one per inserted verse and each generated key is pushed at the tail, no
matter what the cache holds. -/
theorem cvFold_md (book : String) (chapter : Int) (bibleVersion : String)
    (now : Int) :
    ∀ (verses : List VersePair) (st : VerseCache × VerseCacheMetadata),
      (verses.foldl (cvInsert book chapter bibleVersion now) st).2 =
        ⟨st.2.totalVerses + (verses.length : Int),
         st.2.lruQueue ++ newKeys book chapter bibleVersion verses⟩ := by
  intro verses
  induction verses with
  | nil =>
      intro st
      simp [newKeys]
  | cons v rest ih =>
      intro st
      rw [List.foldl_cons, ih]
      unfold cvInsert newKeys
      simp only [List.length_cons, List.map_cons]
      congr 1
      · push_cast; ring
      · simp [List.append_assoc]

/-- The cache component of the insertion loop when all generated keys are
fresh and pairwise distinct: the new records are appended in batch order. -/
theorem cvFold_cache (book : String) (chapter : Int) (bibleVersion : String)
    (now : Int) :
    ∀ (verses : List VersePair) (c : VerseCache) (m : VerseCacheMetadata),
      (newKeys book chapter bibleVersion verses).Nodup →
      (∀ k ∈ newKeys book chapter bibleVersion verses, k ∉ objKeys c) →
      (verses.foldl (cvInsert book chapter bibleVersion now) (c, m)).1 =
        c ++ newEntries book chapter bibleVersion now verses := by
  intro verses
  induction verses with
  | nil =>
      intro c m _ _
      simp [newEntries]
  | cons v rest ih =>
      intro c m hnd hfresh
      unfold newKeys at hnd hfresh
      simp only [List.map_cons, List.nodup_cons, List.mem_cons,
        List.mem_map] at hnd hfresh
      rw [List.foldl_cons]
      have hk : verseKey book chapter bibleVersion v.verse ∉ objKeys c :=
        hfresh _ (Or.inl rfl)
      have hset : (cvInsert book chapter bibleVersion now (c, m) v).1 =
          c ++ [(verseKey book chapter bibleVersion v.verse,
                 VerseData.mk v.verse v.text now 1)] :=
        objSet_not_mem c _ _ hk
      have hfresh' : ∀ k ∈ newKeys book chapter bibleVersion rest,
          k ∉ objKeys (cvInsert book chapter bibleVersion now (c, m) v).1 := by
        intro k hkr
        rw [hset, objKeys_append]
        simp only [List.mem_append, not_or]
        refine ⟨hfresh k (Or.inr ?_), ?_⟩
        · unfold newKeys at hkr
          obtain ⟨p, hp, hpe⟩ := List.mem_map.mp hkr
          exact ⟨p, hp, hpe⟩
        · simp only [objKeys_cons, objKeys_nil, List.mem_singleton]
          intro he
          subst he
          unfold newKeys at hkr
          obtain ⟨p, hp, hpe⟩ := List.mem_map.mp hkr
          exact hnd.1 ⟨p, hp, hpe⟩
      have hnd' : (newKeys book chapter bibleVersion rest).Nodup := hnd.2
      have := ih (cvInsert book chapter bibleVersion now (c, m) v).1
        (cvInsert book chapter bibleVersion now (c, m) v).2 hnd' hfresh'
      rw [this, hset]
      unfold newEntries
      rw [List.append_assoc]
      rfl

theorem evictPhase_pos (A : Int) (cache : VerseCache)
    (md : VerseCacheMetadata) (h : md.totalVerses + A > MAX_VERSES) :
    evictPhase A cache md =
      ((md.lruQueue.take (md.totalVerses + A - MAX_VERSES).toNat).foldl
          objDelete cache,
       ⟨md.totalVerses - (md.totalVerses + A - MAX_VERSES),
        md.lruQueue.drop (md.totalVerses + A - MAX_VERSES).toNat⟩) := by
  unfold evictPhase
  rw [if_pos h]

theorem evictPhase_neg (A : Int) (cache : VerseCache)
    (md : VerseCacheMetadata) (h : ¬ md.totalVerses + A > MAX_VERSES) :
    evictPhase A cache md = (cache, md) := by
  unfold evictPhase
  rw [if_neg h]

/-- Store (`cacheVerses`) preserves the bounded-cache invariant, provided the
stored batch has at most 500 verses and its generated keys are pairwise
distinct and not already live. -/
theorem cacheVersesCore_inv (book : String) (chapter : Int)
    (bibleVersion : String) (verses : List VersePair) (now : Int)
    (cache : VerseCache) (md : VerseCacheMetadata) (hInv : Inv cache md)
    (hnd : (newKeys book chapter bibleVersion verses).Nodup)
    (hfresh : ∀ k ∈ newKeys book chapter bibleVersion verses,
      objGet cache k = none)
    (hlen : (verses.length : Int) ≤ MAX_VERSES) :
    Inv (cacheVersesCore book chapter bibleVersion verses now cache md).1
        (cacheVersesCore book chapter bibleVersion verses now cache md).2 := by
  obtain ⟨h1, h2, h3, h4, h5, h6, h7⟩ := hInv
  have hfresh0 : ∀ k ∈ newKeys book chapter bibleVersion verses,
      k ∉ objKeys cache := by
    intro k hk
    exact (objGet_eq_none_iff cache k).mp (hfresh k hk)
  -- facts about the state after the eviction phase
  have hmid : Inv (evictPhase (verses.length : Int) cache md).1
        (evictPhase (verses.length : Int) cache md).2
      ∧ (evictPhase (verses.length : Int) cache md).2.totalVerses
          + (verses.length : Int) ≤ MAX_VERSES
      ∧ (∀ k, k ∈ objKeys (evictPhase (verses.length : Int) cache md).1 →
          k ∈ objKeys cache) := by
    by_cases hb : md.totalVerses + (verses.length : Int) > MAX_VERSES
    · rw [evictPhase_pos _ _ _ hb]
      set r := md.totalVerses + (verses.length : Int) - MAX_VERSES with hrdef
      have hr0 : 0 < r := by omega
      have hrq : r ≤ (md.lruQueue.length : Int) := by omega
      have htn : r.toNat ≤ md.lruQueue.length := by omega
      set taken := md.lruQueue.take r.toNat with htdef
      have htlen : taken.length = r.toNat := List.length_take_of_le htn
      have htnd : taken.Nodup := h3.sublist (List.take_sublist _ _)
      have htsubq : ∀ k ∈ taken, k ∈ md.lruQueue :=
        fun k hk => List.take_subset _ _ hk
      have htsubc : ∀ k ∈ taken, k ∈ objKeys cache :=
        fun k hk => h5 k (htsubq k hk)
      have hkeys : objKeys (taken.foldl objDelete cache) =
          taken.foldl List.erase (objKeys cache) := objKeys_deleteAll _ _
      have hmemc : ∀ k, k ∈ objKeys (taken.foldl objDelete cache) ↔
          (k ∈ objKeys cache ∧ k ∉ taken) := by
        intro k
        rw [hkeys]
        exact mem_foldl_erase taken (objKeys cache) h4 k
      have hdisj : ∀ k ∈ md.lruQueue.drop r.toNat, k ∉ taken := by
        have hq : taken ++ md.lruQueue.drop r.toNat = md.lruQueue :=
          List.take_append_drop _ _
        intro k hk hk'
        have : ¬ (taken ++ md.lruQueue.drop r.toNat).Nodup := by
          intro hnd'
          exact (List.disjoint_of_nodup_append hnd') hk' hk
        rw [hq] at this
        exact this h3
      have hlen1 : (taken.foldl objDelete cache).length =
          cache.length - r.toNat := by
        have := length_foldl_erase taken (objKeys cache) h4 htnd htsubc
        rw [← hkeys] at this
        have hck : (objKeys (taken.foldl objDelete cache)).length =
            (taken.foldl objDelete cache).length := by
          unfold objKeys; rw [List.length_map]
        have hck2 : (objKeys cache).length = cache.length := by
          unfold objKeys; rw [List.length_map]
        omega
      refine ⟨⟨?_, ?_, ?_, ?_, ?_, ?_, ?_⟩, ?_, ?_⟩
      · show md.totalVerses - r = ((md.lruQueue.drop r.toNat).length : Int)
        rw [List.length_drop]
        omega
      · show (md.lruQueue.drop r.toNat).length =
          (taken.foldl objDelete cache).length
        rw [List.length_drop]
        omega
      · exact h3.sublist (List.drop_sublist _ _)
      · show (objKeys (taken.foldl objDelete cache)).Nodup
        rw [hkeys]
        exact nodup_foldl_erase taken _ h4
      · intro k hk
        rw [hmemc k]
        exact ⟨h5 k (List.drop_subset _ _ hk), hdisj k hk⟩
      · intro k hk
        rw [hmemc k] at hk
        have hq : k ∈ md.lruQueue := h6 k hk.1
        rw [← List.take_append_drop r.toNat md.lruQueue] at hq
        rcases List.mem_append.mp hq with h | h
        · exact absurd h hk.2
        · exact h
      · show md.totalVerses - r ≤ MAX_VERSES
        omega
      · show md.totalVerses - r + (verses.length : Int) ≤ MAX_VERSES
        omega
      · intro k hk
        exact ((hmemc k).mp hk).1
    · rw [evictPhase_neg _ _ _ hb]
      exact ⟨⟨h1, h2, h3, h4, h5, h6, h7⟩,
        by show md.totalVerses + (verses.length : Int) ≤ MAX_VERSES; omega,
        fun k hk => hk⟩
  obtain ⟨⟨m1, m2, m3, m4, m5, m6, m7⟩, hroom, hsub⟩ := hmid
  have hfresh1 : ∀ k ∈ newKeys book chapter bibleVersion verses,
      k ∉ objKeys (evictPhase (verses.length : Int) cache md).1 :=
    fun k hk hc => hfresh0 k hk (hsub k hc)
  -- the insertion phase
  have hcache := cvFold_cache book chapter bibleVersion now verses
    (evictPhase (verses.length : Int) cache md).1
    (evictPhase (verses.length : Int) cache md).2 hnd hfresh1
  have hmd := cvFold_md book chapter bibleVersion now verses
    ((evictPhase (verses.length : Int) cache md).1,
     (evictPhase (verses.length : Int) cache md).2)
  have hsplit : cacheVersesCore book chapter bibleVersion verses now cache md
      = verses.foldl (cvInsert book chapter bibleVersion now)
        ((evictPhase (verses.length : Int) cache md).1,
         (evictPhase (verses.length : Int) cache md).2) := rfl
  rw [hsplit, hcache, hmd]
  have hklen : (newKeys book chapter bibleVersion verses).length =
      verses.length := by
    unfold newKeys; rw [List.length_map]
  have hentlen : (newEntries book chapter bibleVersion now verses).length =
      verses.length := by
    unfold newEntries; rw [List.length_map]
  have hkeys2 : objKeys ((evictPhase (verses.length : Int) cache md).1 ++
      newEntries book chapter bibleVersion now verses) =
      objKeys (evictPhase (verses.length : Int) cache md).1 ++
        newKeys book chapter bibleVersion verses := by
    rw [objKeys_append, objKeys_newEntries]
  refine ⟨?_, ?_, ?_, ?_, ?_, ?_, ?_⟩
  · simp only [List.length_append]
    push_cast
    omega
  · simp only [List.length_append, List.length_append]
    rw [hklen, hentlen]
    omega
  · refine List.Nodup.append m3 hnd ?_
    intro k hkq hkn
    exact hfresh1 k hkn (m5 k hkq)
  · rw [hkeys2]
    refine List.Nodup.append m4 hnd ?_
    intro k hkc hkn
    exact hfresh1 k hkn hkc
  · intro k hk
    rw [hkeys2]
    rcases List.mem_append.mp hk with h | h
    · exact List.mem_append_left _ (m5 k h)
    · exact List.mem_append_right _ h
  · intro k hk
    rw [hkeys2] at hk
    rcases List.mem_append.mp hk with h | h
    · exact List.mem_append_left _ (m6 k h)
    · exact List.mem_append_right _ h
  · simp only []
    omega

/-! ## Specification of the audio-cache sweep -/

theorem objDelete_eq_filter {α : Type} :
    ∀ (c : List (String × α)), (objKeys c).Nodup → ∀ d,
      objDelete c d = c.filter (fun p => decide (p.1 ≠ d)) := by
  intro c
  induction c with
  | nil => intro _ d; rfl
  | cons q rest ih =>
      intro hn d
      simp only [objKeys_cons, List.nodup_cons] at hn
      by_cases hq : q.1 = d
      · subst hq
        have hrest : List.filter (fun p : String × α => !decide (p.1 = q.1))
            rest = rest := by
          refine List.filter_eq_self.mpr ?_
          intro p hp
          by_cases he : p.1 = q.1
          · exact absurd (he ▸ List.mem_map.mpr ⟨p, hp, rfl⟩) hn.1
          · simp [he]
        simp [objDelete, List.filter_cons, hrest]
      · simp [objDelete, List.filter_cons, hq, ih hn.2 d]

theorem objKeys_filter_nodup {α : Type} (c : List (String × α))
    (pred : String × α → Bool) (hn : (objKeys c).Nodup) :
    (objKeys (c.filter pred)).Nodup :=
  hn.sublist ((List.filter_sublist c).map Prod.fst)

theorem deleteAll_eq_filter {α : Type} :
    ∀ (ds : List String) (c : List (String × α)), (objKeys c).Nodup →
      ds.foldl objDelete c = c.filter (fun p => decide (p.1 ∉ ds)) := by
  intro ds
  induction ds with
  | nil =>
      intro c _
      refine (List.filter_eq_self.mpr ?_).symm
      intro p _
      simp
  | cons d ds ih =>
      intro c hn
      rw [List.foldl_cons, objDelete_eq_filter c hn d,
        ih _ (objKeys_filter_nodup c _ hn), List.filter_filter]
      refine List.filter_congr ?_
      intro p _
      simp only [List.mem_cons, not_or]
      by_cases h1 : p.1 ∈ ds <;> by_cases h2 : p.1 = d <;> simp [h1, h2]

/-- Full characterization of the sweep loop of `clearExpiredAudioUrls`
over a duplicate-free key list: it deletes exactly the keys whose record
has expired, and raises the `hasChanges` flag exactly when one exists. -/
theorem ceFold_spec (now : Int) :
    ∀ (ks : List String) (cache : AudioCache) (flag : Bool), ks.Nodup →
      ks.foldl (ceVisit now) (cache, flag) =
        ((ks.filter (isExpiredKey now cache)).foldl objDelete cache,
         flag || !(ks.filter (isExpiredKey now cache)).isEmpty) := by
  intro ks
  induction ks with
  | nil => intro cache flag _; simp
  | cons k ks ih =>
      intro cache flag hn
      rw [List.nodup_cons] at hn
      have hpres : ∀ k' ∈ ks,
          objGet (objDelete cache k) k' = objGet cache k' := by
        intro k' hk'
        exact objGet_objDelete_ne cache k k' (by rintro rfl; exact hn.1 hk')
      have hfcongr : ∀ (c' : AudioCache),
          (∀ k' ∈ ks, objGet c' k' = objGet cache k') →
          ks.filter (isExpiredKey now c') =
            ks.filter (isExpiredKey now cache) := by
        intro c' hc'
        refine List.filter_congr ?_
        intro k' hk'
        unfold isExpiredKey
        rw [hc' k' hk']
      by_cases he : isExpiredKey now cache k
      · obtain ⟨ad, had⟩ : ∃ ad, objGet cache k = some ad := by
          unfold isExpiredKey at he
          rcases hg : objGet cache k with _ | ad
          · rw [hg] at he; simp at he
          · exact ⟨ad, rfl⟩
        have hlt : JsNum.lt ad.expiresAt (.int now) = true := by
          unfold isExpiredKey at he
          rw [had] at he
          exact he
        have hstep : ceVisit now (cache, flag) k = (objDelete cache k, true) := by
          unfold ceVisit
          rw [show objGet (cache, flag).1 k = objGet cache k from rfl, had]
          simp [hlt]
        rw [List.foldl_cons, hstep, ih (objDelete cache k) true hn.2,
          hfcongr _ hpres, List.filter_cons_of_pos he]
        rw [List.foldl_cons]
        simp
      · have he' : isExpiredKey now cache k = false := by simpa using he
        have hstep : ceVisit now (cache, flag) k = (cache, flag) := by
          unfold ceVisit
          rw [show objGet (cache, flag).1 k = objGet cache k from rfl]
          unfold isExpiredKey at he'
          rcases hg : objGet cache k with _ | ad
          · rfl
          · rw [hg] at he'
            simp only [] at he'
            simp [he']
        rw [List.foldl_cons, hstep, ih cache flag hn.2,
          List.filter_cons_of_neg (by simp [he'])]

/-- The sweep keeps exactly the unexpired records (in order) and reports a
change exactly when some record had expired. -/
theorem clearExpiredCore_spec (now : Int) (cache : AudioCache)
    (hn : (objKeys cache).Nodup) :
    (clearExpiredCore now cache).1 =
      cache.filter (fun p => !JsNum.lt p.2.expiresAt (.int now))
    ∧ ((clearExpiredCore now cache).2 = true ↔
        ∃ p ∈ cache, JsNum.lt p.2.expiresAt (.int now) = true) := by
  have hfold := ceFold_spec now (objKeys cache) cache false hn
  have hc : clearExpiredCore now cache =
      (((objKeys cache).filter (isExpiredKey now cache)).foldl objDelete cache,
       false || !((objKeys cache).filter (isExpiredKey now cache)).isEmpty) :=
    hfold
  constructor
  · rw [hc, deleteAll_eq_filter _ _ hn]
    refine List.filter_congr ?_
    intro p hp
    have hg : objGet cache p.1 = some p.2 := objGet_of_mem_nodup hn hp
    have hkmem : p.1 ∈ objKeys cache := List.mem_map.mpr ⟨p, hp, rfl⟩
    have hexp : isExpiredKey now cache p.1 = JsNum.lt p.2.expiresAt (.int now) := by
      unfold isExpiredKey
      rw [hg]
    by_cases hl : JsNum.lt p.2.expiresAt (.int now)
    · simp [List.mem_filter, hkmem, hexp, hl]
    · have hl' : JsNum.lt p.2.expiresAt (.int now) = false := by simpa using hl
      simp [List.mem_filter, hexp, hl']
  · rw [hc]
    simp only [Bool.false_or, Bool.not_eq_true']
    constructor
    · intro hne
      have hnil : ((objKeys cache).filter (isExpiredKey now cache)) ≠ [] := by
        intro hemp
        rw [hemp] at hne
        exact absurd hne (by simp)
      obtain ⟨k, hk⟩ := List.exists_mem_of_ne_nil _ hnil
      have hk1 := List.mem_filter.mp hk
      obtain ⟨p, hp, hpe⟩ := List.mem_map.mp hk1.1
      refine ⟨p, hp, ?_⟩
      have hg : objGet cache p.1 = some p.2 := objGet_of_mem_nodup hn hp
      have hthis := hk1.2
      unfold isExpiredKey at hthis
      rw [← hpe, hg] at hthis
      simpa using hthis
    · rintro ⟨p, hp, hlt⟩
      have hg : objGet cache p.1 = some p.2 := objGet_of_mem_nodup hn hp
      have hkmem : p.1 ∈ objKeys cache := List.mem_map.mpr ⟨p, hp, rfl⟩
      have hmemf : p.1 ∈ (objKeys cache).filter (isExpiredKey now cache) := by
        refine List.mem_filter.mpr ⟨hkmem, ?_⟩
        unfold isExpiredKey
        rw [hg]
        exact hlt
      rcases hfe : (objKeys cache).filter (isExpiredKey now cache)
        with _ | ⟨a, l⟩
      · rw [hfe] at hmemf
        simp at hmemf
      · rfl

/-! ## Chapter keys of distinct chapters never prefix-match -/

theorem string_eq_of_data_eq {a b : String} (h : a.data = b.data) : a = b := by
  cases a
  cases b
  rw [show String.mk _ = _ from rfl]
  exact congrArg String.mk h

theorem colon_prefix_eq :
    ∀ (x y z : List Char), ':' ∉ x → ':' ∉ y →
      (x ++ [':']) <+: (y ++ ':' :: z) → x = y := by
  intro x
  induction x with
  | nil =>
      intro y z _ hy hpre
      rcases y with _ | ⟨c, y⟩
      · rfl
      · simp only [List.nil_append, List.cons_append] at hpre
        rw [List.cons_prefix_cons] at hpre
        exact absurd (hpre.1 ▸ List.mem_cons_self c y) hy
  | cons a x ih =>
      intro y z hx hy hpre
      rcases y with _ | ⟨c, y⟩
      · simp only [List.cons_append, List.nil_append] at hpre
        rw [List.cons_prefix_cons] at hpre
        exact absurd (hpre.1 ▸ List.mem_cons_self a x) hx
      · simp only [List.cons_append] at hpre
        rw [List.cons_prefix_cons] at hpre
        have := ih y z (fun h => hx (List.mem_cons_of_mem a h))
          (fun h => hy (List.mem_cons_of_mem c h)) hpre.2
        rw [hpre.1, this]

/-- A verse key of chapter `c'` never prefix-matches the lookup prefix of a
different chapter `c` of the same version and book: the full delimited
chapter component is compared, so a chapter being a decimal prefix of
another (1 vs 10) causes no false match. -/
theorem verseKey_not_prefix (book : String) (chapter chapter' : Int)
    (bibleVersion : String) (n : Int)
    (hc : ':' ∉ (toString chapter).data)
    (hc' : ':' ∉ (toString chapter').data)
    (hne : toString chapter ≠ toString chapter') :
    strStartsWith (verseKey book chapter' bibleVersion n)
      (groupKey book chapter bibleVersion ++ ":") = false := by
  rw [Bool.eq_false_iff]
  intro hpre
  unfold strStartsWith at hpre
  rw [List.isPrefixOf_iff_prefix] at hpre
  unfold verseKey groupKey at hpre
  simp only [String.data_append] at hpre
  rw [List.append_assoc
        (bibleVersion.data ++ [':'] ++ book.data ++ [':'])
        (toString chapter).data [':'],
      List.append_assoc
        (bibleVersion.data ++ [':'] ++ book.data ++ [':']
          ++ (toString chapter').data) [':'] (toString n).data,
      List.append_assoc
        (bibleVersion.data ++ [':'] ++ book.data ++ [':'])
        (toString chapter').data ([':'] ++ (toString n).data),
      List.prefix_append_right_inj] at hpre
  exact hne (string_eq_of_data_eq (colon_prefix_eq _ _ _ hc hc' hpre))

/-! ## Storage-level lemmas -/

theorem vkey_ne_mkey : VERSE_CACHE_KEY ≠ VERSE_CACHE_METADATA_KEY := by
  decide

theorem vkey_ne_akey : VERSE_CACHE_KEY ≠ AUDIO_CACHE_KEY := by
  decide

theorem mkey_ne_akey : VERSE_CACHE_METADATA_KEY ≠ AUDIO_CACHE_KEY := by
  decide

theorem getVerseCache_setVerseCache (store : Store) (ok2 : Bool)
    (c : VerseCache) (m : VerseCacheMetadata) :
    getVerseCache (setVerseCache store true ok2 c m) = c := by
  unfold setVerseCache getVerseCache getVerseCacheE getItem
  rcases ok2 with _ | _
  · simp [objGet_objSet_self]
  · simp [objGet_objSet_ne _ _ _ _ vkey_ne_mkey, objGet_objSet_self]

theorem getVerseCacheMetadata_setVerseCache (store : Store) (c : VerseCache)
    (m : VerseCacheMetadata) :
    getVerseCacheMetadata (setVerseCache store true true c m) = m := by
  unfold setVerseCache getVerseCacheMetadata getVerseCacheMetadataE getItem
  simp [objGet_objSet_self]

theorem getAudioCache_setAudioCache (store : Store) (a : AudioCache) :
    getAudioCache (setAudioCache store true a) = a := by
  unfold setAudioCache getAudioCache getAudioCacheE getItem
  simp [objGet_objSet_self]

theorem setVerseCache_frame (store : Store) (ok1 ok2 : Bool)
    (c : VerseCache) (m : VerseCacheMetadata) (k : String)
    (h1 : k ≠ VERSE_CACHE_KEY) (h2 : k ≠ VERSE_CACHE_METADATA_KEY) :
    objGet (setVerseCache store ok1 ok2 c m) k = objGet store k := by
  unfold setVerseCache
  rcases ok1 with _ | _
  · rfl
  · rcases ok2 with _ | _
    · simp [objGet_objSet_ne _ _ _ _ h1]
    · simp [objGet_objSet_ne _ _ _ _ h1, objGet_objSet_ne _ _ _ _ h2]

theorem setAudioCache_frame (store : Store) (ok : Bool) (a : AudioCache)
    (k : String) (h : k ≠ AUDIO_CACHE_KEY) :
    objGet (setAudioCache store ok a) k = objGet store k := by
  unfold setAudioCache
  rcases ok with _ | _
  · rfl
  · simp [objGet_objSet_ne _ _ _ _ h]

theorem removeItem_frame (store : Store) (k k' : String) (h : k' ≠ k) :
    objGet (removeItem store k) k' = objGet store k' := by
  unfold removeItem
  exact objGet_objDelete_ne store k k' h

theorem getAudioCache_congr (s s' : Store)
    (h : objGet s AUDIO_CACHE_KEY = objGet s' AUDIO_CACHE_KEY) :
    getAudioCache s = getAudioCache s' := by
  unfold getAudioCache getAudioCacheE getItem
  rw [h]

theorem getVerseCache_congr (s s' : Store)
    (h : objGet s VERSE_CACHE_KEY = objGet s' VERSE_CACHE_KEY) :
    getVerseCache s = getVerseCache s' := by
  unfold getVerseCache getVerseCacheE getItem
  rw [h]

theorem getVerseCacheMetadata_congr (s s' : Store)
    (h : objGet s VERSE_CACHE_METADATA_KEY =
      objGet s' VERSE_CACHE_METADATA_KEY) :
    getVerseCacheMetadata s = getVerseCacheMetadata s' := by
  unfold getVerseCacheMetadata getVerseCacheMetadataE getItem
  rw [h]

theorem jsLt_eq_gt (e : JsNum) (n : Int) :
    JsNum.lt e (.int n) = JsNum.gt (.int n) e := by
  cases e <;> rfl

theorem mem_of_objGet {α : Type} :
    ∀ {o : List (String × α)} {k : String} {v : α},
      objGet o k = some v → (k, v) ∈ o := by
  intro o
  induction o with
  | nil => intro k v h; simp [objGet] at h
  | cons p rest ih =>
      intro k v h
      rcases p with ⟨a, b⟩
      unfold objGet at h
      by_cases hp : a = k
      · subst hp
        rw [if_pos rfl] at h
        injection h with hv
        subst hv
        exact List.mem_cons_self _ _
      · rw [if_neg hp] at h
        exact List.mem_cons_of_mem _ (ih h)

theorem objGet_objDelete_self {α : Type} (o : List (String × α))
    (hn : (objKeys o).Nodup) (k : String) :
    objGet (objDelete o k) k = none := by
  rw [objGet_eq_none_iff, objKeys_objDelete]
  intro hmem
  exact ((hn.mem_erase_iff).mp hmem).1 rfl

/-! ## Claim theorems -/

/-- C5: the expiring cache's lookup returns absent without writing when no
record exists; deletes the record, persists, and returns absent when `now`
is strictly past `expiresAt`; otherwise returns the stored URL without
mutating anything; and never returns a URL whose record has
`expiresAt < now` at call time. -/
theorem C5_audio_lookup (store : Store) (ok : Bool) (book : String)
    (chapter : Int) (bibleVersion : String) (now : Int) :
    let key := groupKey book chapter bibleVersion
    let cache := getAudioCache store
    (objGet cache key = none →
      getCachedAudioUrlS store ok book chapter bibleVersion now =
        (none, store))
    ∧ (∀ ad, objGet cache key = some ad →
        JsNum.gt (.int now) ad.expiresAt = true →
        getCachedAudioUrlS store ok book chapter bibleVersion now =
          (none, setAudioCache store ok (objDelete cache key)))
    ∧ (∀ ad, objGet cache key = some ad →
        JsNum.gt (.int now) ad.expiresAt = false →
        getCachedAudioUrlS store ok book chapter bibleVersion now =
          (some ad.audioUrl, store))
    ∧ (∀ u, (getCachedAudioUrlCore book chapter bibleVersion now cache).1 =
          some u →
        ∃ ad, objGet cache key = some ad ∧ u = ad.audioUrl ∧
          JsNum.lt ad.expiresAt (.int now) = false) := by
  intro key cache
  refine ⟨?_, ?_, ?_, ?_⟩
  · intro h
    simp only [getCachedAudioUrlS, getCachedAudioUrlCore]
    rw [h]
    simp
  · intro ad had hexp
    simp only [getCachedAudioUrlS, getCachedAudioUrlCore]
    rw [had]
    simp [hexp]
  · intro ad had hexp
    simp only [getCachedAudioUrlS, getCachedAudioUrlCore]
    rw [had]
    simp [hexp]
  · intro u hu
    simp only [getCachedAudioUrlCore] at hu
    rcases had : objGet cache key with _ | ad
    · rw [had] at hu
      simp at hu
    · rw [had] at hu
      by_cases hexp : JsNum.gt (.int now) ad.expiresAt
      · simp [hexp] at hu
      · have hexp' : JsNum.gt (.int now) ad.expiresAt = false := by
          simpa using hexp
        simp only [hexp', if_false] at hu
        refine ⟨ad, rfl, ?_, ?_⟩
        · have : some ad.audioUrl = some u := hu
          injection this with h2
          exact h2.symm
        · rw [jsLt_eq_gt]
          exact hexp'

/-- C5 witness: concrete hit below the expiry bound. -/
theorem C5_audio_lookup_witness :
    getCachedAudioUrlS
        [(AUDIO_CACHE_KEY,
          StoredVal.audioVal [("ESV:John:3", ⟨"u", JsNum.int 10, 0, 0⟩)])]
        true "John" 3 "ESV" 5 =
      (some "u",
       [(AUDIO_CACHE_KEY,
         StoredVal.audioVal [("ESV:John:3", ⟨"u", JsNum.int 10, 0, 0⟩)])]) :=
  (C5_audio_lookup
      [(AUDIO_CACHE_KEY,
        StoredVal.audioVal [("ESV:John:3", ⟨"u", JsNum.int 10, 0, 0⟩)])]
      true "John" 3 "ESV" 5).2.2.1
    ⟨"u", JsNum.int 10, 0, 0⟩ (by decide) (by decide)

/-- C7: the sweep deletes exactly the expired records, keeps the rest in
order, and attempts a persisted write iff at least one record was removed;
on an empty mapping it writes nothing. -/
theorem C7_sweep (store : Store) (ok : Bool) (now : Int)
    (hn : (objKeys (getAudioCache store)).Nodup) :
    let cache := getAudioCache store
    (clearExpiredCore now cache).1 =
      cache.filter (fun p => !JsNum.lt p.2.expiresAt (.int now))
    ∧ ((clearExpiredCore now cache).2 = true ↔
        ∃ p ∈ cache, JsNum.lt p.2.expiresAt (.int now) = true)
    ∧ ((clearExpiredCore now cache).2 = true →
        clearExpiredAudioUrlsS store ok now =
          setAudioCache store ok (clearExpiredCore now cache).1)
    ∧ ((clearExpiredCore now cache).2 = false →
        clearExpiredAudioUrlsS store ok now = store)
    ∧ (cache = [] → clearExpiredAudioUrlsS store ok now = store) := by
  intro cache
  obtain ⟨hfilter, hflag⟩ := clearExpiredCore_spec now cache hn
  refine ⟨hfilter, hflag, ?_, ?_, ?_⟩
  · intro h
    simp only [clearExpiredAudioUrlsS]
    rw [h]
    rfl
  · intro h
    simp only [clearExpiredAudioUrlsS]
    rw [h]
    rfl
  · intro h
    simp only [clearExpiredAudioUrlsS]
    rw [show getAudioCache store = cache from rfl, h]
    rfl

/-- C7 witness: a one-record cache with an expired record is swept with a
persisted write; the empty cache is untouched. -/
theorem C7_sweep_witness :
    clearExpiredAudioUrlsS
        [(AUDIO_CACHE_KEY,
          StoredVal.audioVal [("ESV:John:3", ⟨"u", JsNum.int 1, 0, 0⟩)])]
        true 5 =
      setAudioCache
        [(AUDIO_CACHE_KEY,
          StoredVal.audioVal [("ESV:John:3", ⟨"u", JsNum.int 1, 0, 0⟩)])]
        true
        (clearExpiredCore 5
          (getAudioCache
            [(AUDIO_CACHE_KEY,
              StoredVal.audioVal
                [("ESV:John:3", ⟨"u", JsNum.int 1, 0, 0⟩)])])).1 :=
  (C7_sweep
      [(AUDIO_CACHE_KEY,
        StoredVal.audioVal [("ESV:John:3", ⟨"u", JsNum.int 1, 0, 0⟩)])]
      true 5 (by decide)).2.2.1 (by decide)

/-- C9: at `now = expiresAt` a record is still live: the lookup returns its
URL without mutation (the test is strictly `now > expiresAt`) and the sweep
retains it (the test is strictly `expiresAt < now`). -/
theorem C9_expiry_boundary (cache : AudioCache) (book : String)
    (chapter : Int) (bibleVersion : String) (now : Int) (ad : AudioData)
    (hn : (objKeys cache).Nodup)
    (hget : objGet cache (groupKey book chapter bibleVersion) = some ad)
    (hexp : ad.expiresAt = .int now) :
    getCachedAudioUrlCore book chapter bibleVersion now cache =
      (some ad.audioUrl, cache, false)
    ∧ (groupKey book chapter bibleVersion, ad) ∈ (clearExpiredCore now cache).1
    ∧ JsNum.gt (.int now) ad.expiresAt = false
    ∧ JsNum.lt ad.expiresAt (.int now) = false := by
  have hgt : JsNum.gt (.int now) ad.expiresAt = false := by
    rw [hexp]
    simp [JsNum.gt]
  have hlt : JsNum.lt ad.expiresAt (.int now) = false := by
    rw [hexp]
    simp [JsNum.lt]
  refine ⟨?_, ?_, hgt, hlt⟩
  · simp only [getCachedAudioUrlCore]
    rw [hget]
    simp [hgt]
  · obtain ⟨hfilter, _⟩ := clearExpiredCore_spec now cache hn
    rw [hfilter]
    refine List.mem_filter.mpr ⟨mem_of_objGet hget, ?_⟩
    simp [hlt]

/-- C9 witness: a concrete record whose expiry equals the current instant. -/
theorem C9_expiry_boundary_witness :
    getCachedAudioUrlCore "John" 3 "ESV" 7
        [("ESV:John:3", ⟨"u", JsNum.int 7, 0, 0⟩)] =
      (some "u", [("ESV:John:3", ⟨"u", JsNum.int 7, 0, 0⟩)], false) :=
  (C9_expiry_boundary [("ESV:John:3", ⟨"u", JsNum.int 7, 0, 0⟩)]
      "John" 3 "ESV" 7 ⟨"u", JsNum.int 7, 0, 0⟩
      (by decide) (by decide) rfl).1

/-- C2 counterexample: with an `Expires` parameter present but unparsable
(`"abc"`), the stored `expiresAt` is `NaN` (`parseInt` yields `NaN`, and
`NaN * 1000` is `NaN`), not the claimed `now + 24h` default. -/
theorem C2_counterexample :
    parseIntJs "abc" = JsNum.nan
    ∧ objGet
        (cacheAudioUrlCore "John" 3 "ESV" "https://cdn/a.mp3?Expires=abc"
          (some (some "abc")) 0 0 0 [])
        (groupKey "John" 3 "ESV") =
      some ⟨"https://cdn/a.mp3?Expires=abc", JsNum.nan, 0, 0⟩
    ∧ JsNum.nan ≠ JsNum.int (0 + 24 * 60 * 60 * 1000) :=
  ⟨by decide, by decide, by decide⟩

/-- C2 (amended): the stored record carries `expiresAt` computed from the
`Expires` parameter: an absent parameter, an unparsable URL, or a present
but empty (falsy) parameter value give `now + 24h`; a nonempty value whose
`parseInt` is the integer `n` gives `n * 1000` (epoch seconds to
milliseconds); a nonempty value with no leading integer gives `NaN` (the
record then never expires, since every comparison with `NaN` is false). -/
theorem C2_expiresAt (store : Store) (book : String) (chapter : Int)
    (bibleVersion : String) (audioUrl : String)
    (urlExpires : Option (Option String)) (now duration fileSize : Int) :
    objGet
      (getAudioCache (cacheAudioUrlS store true book chapter bibleVersion
        audioUrl urlExpires now duration fileSize))
      (groupKey book chapter bibleVersion) =
      some ⟨audioUrl, computeExpiresAt now urlExpires, duration, fileSize⟩
    ∧ (urlExpires = none →
        computeExpiresAt now urlExpires = .int (now + 24 * 60 * 60 * 1000))
    ∧ (urlExpires = some none →
        computeExpiresAt now urlExpires = .int (now + 24 * 60 * 60 * 1000))
    ∧ (urlExpires = some (some "") →
        computeExpiresAt now urlExpires = .int (now + 24 * 60 * 60 * 1000))
    ∧ (∀ s n, urlExpires = some (some s) → s ≠ "" →
        parseIntJs s = .int n →
        computeExpiresAt now urlExpires = .int (n * 1000))
    ∧ (∀ s, urlExpires = some (some s) → s ≠ "" → parseIntJs s = .nan →
        computeExpiresAt now urlExpires = .nan) := by
  refine ⟨?_, ?_, ?_, ?_, ?_, ?_⟩
  · simp only [cacheAudioUrlS, cacheAudioUrlCore]
    rw [getAudioCache_setAudioCache, objGet_objSet_self]
  · rintro rfl
    rfl
  · rintro rfl
    rfl
  · rintro rfl
    rfl
  · intro s n hs hne hp
    subst hs
    simp only [computeExpiresAt]
    rw [if_neg hne, hp]
    rfl
  · intro s hs hne hp
    subst hs
    simp only [computeExpiresAt]
    rw [if_neg hne, hp]
    rfl

/-- C2 witness: a parsable `Expires` of 1700000000 epoch seconds is stored
as 1700000000 * 1000 milliseconds. -/
theorem C2_expiresAt_witness :
    computeExpiresAt 0 (some (some "1700000000")) =
      JsNum.int (1700000000 * 1000) :=
  (C2_expiresAt [] "John" 3 "ESV" "https://cdn/a.mp3?Expires=1700000000"
      (some (some "1700000000")) 0 0 0).2.2.2.2.1
    "1700000000" 1700000000 rfl (by decide) (by decide)

/-- C1 counterexample: a reachable state violating the invariant.
Storing the same one-verse group twice from the empty state leaves
`totalVerses = 2` and a duplicated key in `lruQueue`, while only one
record is live. -/
theorem C1_counterexample :
    ¬ Inv
      (cacheVersesCore "Genesis" 1 "KJV" [⟨1, "a"⟩] 6
        (cacheVersesCore "Genesis" 1 "KJV" [⟨1, "a"⟩] 5 [] ⟨0, []⟩).1
        (cacheVersesCore "Genesis" 1 "KJV" [⟨1, "a"⟩] 5 [] ⟨0, []⟩).2).1
      (cacheVersesCore "Genesis" 1 "KJV" [⟨1, "a"⟩] 6
        (cacheVersesCore "Genesis" 1 "KJV" [⟨1, "a"⟩] 5 [] ⟨0, []⟩).1
        (cacheVersesCore "Genesis" 1 "KJV" [⟨1, "a"⟩] 5 [] ⟨0, []⟩).2).2 := by
  decide

/-- C1 (amended): the invariant holds on the empty state, is preserved by
`getCachedVerses` unconditionally and by `clearVerseCache`, and is
preserved by `cacheVerses` provided the stored batch has at most 500
verses and its generated keys are pairwise distinct and not already live
(re-storing a cached verse, or one oversized batch, breaks it). -/
theorem C1_invariant :
    Inv [] ⟨0, []⟩
    ∧ (∀ book chapter bibleVersion now cache md, Inv cache md →
        Inv (getCachedVersesCore book chapter bibleVersion now cache md).2.1
            (getCachedVersesCore book chapter bibleVersion now cache md).2.2)
    ∧ (∀ book chapter bibleVersion verses now cache md, Inv cache md →
        (newKeys book chapter bibleVersion verses).Nodup →
        (∀ k ∈ newKeys book chapter bibleVersion verses,
          objGet cache k = none) →
        (verses.length : Int) ≤ MAX_VERSES →
        Inv (cacheVersesCore book chapter bibleVersion verses now cache md).1
            (cacheVersesCore book chapter bibleVersion verses now cache md).2)
    ∧ (∀ store : Store, (objKeys store).Nodup →
        getVerseCache (clearVerseCacheS store) = []
        ∧ getVerseCacheMetadata (clearVerseCacheS store) = ⟨0, []⟩
        ∧ Inv (getVerseCache (clearVerseCacheS store))
              (getVerseCacheMetadata (clearVerseCacheS store))) := by
  refine ⟨by decide, ?_, ?_, ?_⟩
  · intro book chapter bibleVersion now cache md hInv
    exact getCachedVersesCore_inv book chapter bibleVersion now cache md hInv
  · intro book chapter bibleVersion verses now cache md hInv hnd hfresh hlen
    exact cacheVersesCore_inv book chapter bibleVersion verses now cache md
      hInv hnd hfresh hlen
  · intro store hn
    have hv : objGet (clearVerseCacheS store) VERSE_CACHE_KEY = none := by
      unfold clearVerseCacheS removeItem
      rw [objGet_objDelete_ne _ _ _ vkey_ne_mkey]
      exact objGet_objDelete_self store hn VERSE_CACHE_KEY
    have hm : objGet (clearVerseCacheS store) VERSE_CACHE_METADATA_KEY =
        none := by
      unfold clearVerseCacheS removeItem
      refine objGet_objDelete_self _ ?_ _
      rw [objKeys_objDelete]
      exact hn.erase VERSE_CACHE_KEY
    have h1 : getVerseCache (clearVerseCacheS store) = [] := by
      unfold getVerseCache getVerseCacheE getItem
      rw [hv]
    have h2 : getVerseCacheMetadata (clearVerseCacheS store) = ⟨0, []⟩ := by
      unfold getVerseCacheMetadata getVerseCacheMetadataE getItem
      rw [hm]
    refine ⟨h1, h2, ?_⟩
    rw [h1, h2]
    decide

/-- C1 witness: a fresh one-verse store into the empty state keeps the
invariant. -/
theorem C1_invariant_witness :
    Inv (cacheVersesCore "Genesis" 1 "KJV" [⟨1, "a"⟩] 5 [] ⟨0, []⟩).1
        (cacheVersesCore "Genesis" 1 "KJV" [⟨1, "a"⟩] 5 [] ⟨0, []⟩).2 :=
  C1_invariant.2.2.1 "Genesis" 1 "KJV" [⟨1, "a"⟩] 5 [] ⟨0, []⟩
    (by decide) (by decide) (by decide) (by decide)

/-- C3 counterexample: storing a 501-verse batch into the empty state (a
state satisfying the invariant, with `newTotal = 501 > 500`) removes zero
keys from the front of the queue, not the claimed `newTotal - 500 = 1`
(the queue has nothing to pop), and afterwards 501 keys are live while
`totalVerses` reads 500. -/
theorem C3_counterexample :
    Inv [] ⟨0, []⟩
    ∧ ((⟨0, []⟩ : VerseCacheMetadata).totalVerses +
        (verses501.length : Int) > MAX_VERSES)
    ∧ ((evictKeys ⟨0, []⟩ (verses501.length : Int)).length : Int) ≠
        (⟨0, []⟩ : VerseCacheMetadata).totalVerses +
          (verses501.length : Int) - MAX_VERSES
    ∧ (cacheVersesCore "Genesis" 1 "KJV" verses501 0 [] ⟨0, []⟩).2.totalVerses
        = MAX_VERSES
    ∧ (cacheVersesCore "Genesis" 1 "KJV" verses501 0 []
        ⟨0, []⟩).2.lruQueue.length = 501 := by
  have hover : (⟨0, []⟩ : VerseCacheMetadata).totalVerses +
      (verses501.length : Int) > MAX_VERSES := by decide
  have hmd := cvFold_md "Genesis" 1 "KJV" 0 verses501
    (evictPhase (verses501.length : Int) [] ⟨0, []⟩)
  have hev : evictPhase (verses501.length : Int) ([] : VerseCache) ⟨0, []⟩ =
      ([], ⟨0 - ((0 : Int) + (verses501.length : Int) - MAX_VERSES),
        []⟩) := by
    rw [evictPhase_pos _ _ _ hover]
    rfl
  have hrw : cacheVersesCore "Genesis" 1 "KJV" verses501 0 [] ⟨0, []⟩ =
      verses501.foldl (cvInsert "Genesis" 1 "KJV" 0)
        (evictPhase (verses501.length : Int) [] ⟨0, []⟩) := rfl
  refine ⟨by decide, hover, by decide, ?_, ?_⟩
  · rw [hrw, hmd, hev]
    show (0 - ((0 : Int) + (verses501.length : Int) - MAX_VERSES)) +
      (verses501.length : Int) = MAX_VERSES
    decide
  · rw [hrw, hmd, hev]
    show (([] : List String) ++ newKeys "Genesis" 1 "KJV" verses501).length
      = 501
    rw [List.nil_append]
    decide

/-- C3 (amended): on an invariant state, when the incoming batch pushes the
total over 500 and has at most 500 verses itself, the store first pops
exactly `newTotal - 500` keys off the front of the queue, deletes exactly
their records, decrements `totalVerses` by that amount, and only then
inserts the batch; `totalVerses` ends at exactly 500. -/
theorem C3_eviction (book : String) (chapter : Int) (bibleVersion : String)
    (verses : List VersePair) (now : Int) (cache : VerseCache)
    (md : VerseCacheMetadata) (hInv : Inv cache md)
    (hlen : (verses.length : Int) ≤ MAX_VERSES)
    (hover : md.totalVerses + (verses.length : Int) > MAX_VERSES) :
    let A := (verses.length : Int)
    let r := md.totalVerses + A - MAX_VERSES
    let taken := evictKeys md A
    ((taken.length : Int) = r)
    ∧ taken = md.lruQueue.take r.toNat
    ∧ (∀ k ∈ taken, objGet (evictPhase A cache md).1 k = none)
    ∧ (∀ k, k ∉ taken →
        objGet (evictPhase A cache md).1 k = objGet cache k)
    ∧ (evictPhase A cache md).2.totalVerses = md.totalVerses - r
    ∧ (evictPhase A cache md).2.lruQueue = md.lruQueue.drop r.toNat
    ∧ cacheVersesCore book chapter bibleVersion verses now cache md =
        verses.foldl (cvInsert book chapter bibleVersion now)
          (evictPhase A cache md)
    ∧ (cacheVersesCore book chapter bibleVersion verses now cache
        md).2.totalVerses = MAX_VERSES := by
  intro A r taken
  obtain ⟨h1, h2, h3, h4, h5, h6, h7⟩ := hInv
  have htaken : taken = md.lruQueue.take r.toNat := by
    show evictKeys md A = _
    unfold evictKeys
    rw [if_pos hover]
  have htn : r.toNat ≤ md.lruQueue.length := by omega
  have hlentk : (taken.length : Int) = r := by
    rw [htaken, List.length_take_of_le htn]
    omega
  have hevict := evictPhase_pos A cache md hover
  refine ⟨hlentk, htaken, ?_, ?_, ?_, ?_, rfl, ?_⟩
  · intro k hk
    rw [hevict]
    rw [htaken] at hk
    exact deleteAll_objGet_mem h4 hk
  · intro k hk
    rw [hevict]
    rw [htaken] at hk
    exact deleteAll_objGet_not_mem _ _ _ hk
  · rw [hevict]
  · rw [hevict]
  · have hrw : cacheVersesCore book chapter bibleVersion verses now cache md
        = verses.foldl (cvInsert book chapter bibleVersion now)
          (evictPhase A cache md) := rfl
    rw [hrw, cvFold_md, hevict]
    show md.totalVerses - r + A = MAX_VERSES
    omega

/-- C3 witness: storing 500 fresh verses into a one-verse cache
(`newTotal = 501`) evicts exactly one key and ends at `totalVerses = 500`. -/
theorem C3_eviction_witness :
    ((evictKeys oneMd (verses500.length : Int)).length : Int) =
      oneMd.totalVerses + (verses500.length : Int) - MAX_VERSES
    ∧ (cacheVersesCore "Exodus" 1 "KJV" verses500 9 oneCache
        oneMd).2.totalVerses = MAX_VERSES := by
  have h := C3_eviction "Exodus" 1 "KJV" verses500 9 oneCache oneMd
    (by decide) (by decide) (by decide)
  exact ⟨h.1, h.2.2.2.2.2.2.2⟩

/-- C4: the lookup returns absent exactly when no live key carries the
delimited group prefix; otherwise it returns exactly the matching records
(one pair per matching key, no completeness check), sorted ascending by
verse number; and a verse key of a different chapter never carries the
prefix, even when one chapter numeral is a decimal prefix of the other. -/
theorem C4_lookup (book : String) (chapter : Int) (bibleVersion : String)
    (now : Int) (cache : VerseCache) (md : VerseCacheMetadata)
    (hn : (objKeys cache).Nodup) :
    let pref := groupKey book chapter bibleVersion ++ ":"
    let r := getCachedVersesCore book chapter bibleVersion now cache md
    (r.1 = none ↔ ∀ k ∈ objKeys cache, strStartsWith k pref = false)
    ∧ (∀ l, r.1 = some l →
        List.Perm l (matchedPairs cache pref)
        ∧ l.Pairwise (fun a b => a.verse ≤ b.verse)
        ∧ (∀ q ∈ l, ∃ p ∈ cache,
            strStartsWith p.1 pref = true ∧ q = pairOf p.2))
    ∧ (∀ chapter' n, toString chapter ≠ toString chapter' →
        ':' ∉ (toString chapter).data → ':' ∉ (toString chapter').data →
        strStartsWith (verseKey book chapter' bibleVersion n) pref
          = false) := by
  intro pref r
  obtain ⟨s1, s2, s3⟩ :=
    getCachedVersesCore_spec book chapter bibleVersion now cache md hn
  refine ⟨?_, ?_, ?_⟩
  · rw [s1]
    unfold matchedKeys
    rw [List.filter_eq_nil_iff]
    constructor
    · intro h k hk
      have := h k hk
      simpa using this
    · intro h k hk
      rw [h k hk]
      simp
  · intro l hl
    have hl2 : (getCachedVersesCore book chapter bibleVersion now cache
        md).1 = some l := hl
    have hne : matchedKeys cache pref ≠ [] := by
      intro hemp
      rw [s2 hemp] at hl2
      simp at hl2
    obtain ⟨hsome, _, _, _, _, _⟩ := s3 hne
    rw [hsome] at hl2
    injection hl2 with hl2
    subst hl2
    refine ⟨(sortByVerse_perm _), sortByVerse_sorted _, ?_⟩
    intro q hq
    have hq2 : q ∈ matchedPairs cache pref :=
      (sortByVerse_perm _).mem_iff.mp hq
    unfold matchedPairs at hq2
    obtain ⟨p, hp, hpe⟩ := List.mem_map.mp hq2
    have hp2 := List.mem_filter.mp hp
    exact ⟨p, hp2.1, hp2.2, hpe.symm⟩
  · intro chapter' n hne hc hc'
    exact verseKey_not_prefix book chapter chapter' bibleVersion n hc hc' hne

/-- C4 witness: with chapters 1 and 10 of Genesis populated, a chapter-10
key does not match the chapter-1 prefix, and the chapter-1 lookup returns
exactly the chapter-1 verses. -/
theorem C4_lookup_witness :
    strStartsWith (verseKey "Genesis" 10 "KJV" 1)
      (groupKey "Genesis" 1 "KJV" ++ ":") = false
    ∧ ((getCachedVersesCore "Genesis" 1 "KJV" 7 twoChapterCache
        ⟨3, objKeys twoChapterCache⟩).1 = none ↔
        ∀ k ∈ objKeys twoChapterCache,
          strStartsWith k (groupKey "Genesis" 1 "KJV" ++ ":") = false) := by
  have h := C4_lookup "Genesis" 1 "KJV" 7 twoChapterCache
    ⟨3, objKeys twoChapterCache⟩ (by decide)
  exact ⟨h.2.2 10 1 (by decide) (by decide) (by decide), h.1⟩

/-- C6: on a hit, every matched key is moved from its position in the
queue to the tail (matched keys end up rightmost, in scan order), every
matched record has its access count incremented by exactly one and its
timestamp set to `now` (hence access counts never decrease across hits),
and the updated records and index are both persisted by the call. -/
theorem C6_lookup_side_effects (book : String) (chapter : Int)
    (bibleVersion : String) (now : Int) (store : Store)
    (cache : VerseCache) (md : VerseCacheMetadata) (hInv : Inv cache md)
    (hstore1 : getVerseCache store = cache)
    (hstore2 : getVerseCacheMetadata store = md)
    (hhit : matchedKeys cache (groupKey book chapter bibleVersion ++ ":")
      ≠ []) :
    let pref := groupKey book chapter bibleVersion ++ ":"
    let mk := matchedKeys cache pref
    let r := getCachedVersesCore book chapter bibleVersion now cache md
    r.2.2.lruQueue = md.lruQueue.filter (fun k => decide (k ∉ mk)) ++ mk
    ∧ (∀ k ∈ mk, ∃ vd, objGet cache k = some vd ∧
        objGet r.2.1 k = some (bump now vd)
        ∧ (bump now vd).accessCount = vd.accessCount + 1
        ∧ (bump now vd).timestamp = now
        ∧ vd.accessCount ≤ (bump now vd).accessCount)
    ∧ getVerseCache (getCachedVersesS store true true book chapter
        bibleVersion now).2 = r.2.1
    ∧ getVerseCacheMetadata (getCachedVersesS store true true book chapter
        bibleVersion now).2 = r.2.2 := by
  intro pref mk r
  obtain ⟨h1, h2, h3, h4, h5, h6, h7⟩ := hInv
  obtain ⟨s1, s2, s3⟩ :=
    getCachedVersesCore_spec book chapter bibleVersion now cache md h4
  obtain ⟨hsome, q1, q2, q3, q4, q5⟩ := s3 hhit
  have hmknd : mk.Nodup := h4.filter _
  have hmksub : ∀ m ∈ mk, m ∈ md.lruQueue :=
    fun m hm => h6 m (List.mem_of_mem_filter hm)
  refine ⟨?_, ?_, ?_, ?_⟩
  · show (getCachedVersesCore book chapter bibleVersion now cache
      md).2.2.lruQueue = _
    rw [q1, moveAll_eq mk md.lruQueue h3 hmknd hmksub]
  · intro k hk
    have hmem : k ∈ objKeys cache := List.mem_of_mem_filter hk
    obtain ⟨vd, hvd⟩ := Option.isSome_iff_exists.mp
      ((objGet_isSome_iff cache k).mpr hmem)
    refine ⟨vd, hvd, ?_, ?_, rfl, ?_⟩
    · show objGet (getCachedVersesCore book chapter bibleVersion now cache
        md).2.1 k = some (bump now vd)
      rw [q4 k hk, hvd]
      rfl
    · rfl
    · show vd.accessCount ≤ vd.accessCount + 1
      omega
  all_goals {
    have hS : (getCachedVersesS store true true book chapter bibleVersion
        now).2 = setVerseCache store true true
          (getCachedVersesCore book chapter bibleVersion now cache md).2.1
          (getCachedVersesCore book chapter bibleVersion now cache md).2.2
        := by
      simp only [getCachedVersesS]
      rw [hstore1, hstore2, hsome]
    rw [hS]
    first
      | exact getVerseCache_setVerseCache store true _ _
      | exact getVerseCacheMetadata_setVerseCache store _ _
  }

/-- C6 witness: a hit on a one-verse cache bumps the count and persists. -/
theorem C6_lookup_side_effects_witness :
    getVerseCacheMetadata
        (getCachedVersesS oneStore true true "Genesis" 1 "KJV" 9).2 =
      (getCachedVersesCore "Genesis" 1 "KJV" 9 oneCache oneMd).2.2 :=
  (C6_lookup_side_effects "Genesis" 1 "KJV" 9 oneStore oneCache oneMd
      (by decide) (by decide) (by decide) (by decide)).2.2.2

/-- C8: every failed or unparsable slot read yields the safe empty default
instead of an error; a failed first write leaves the store untouched and a
failed second write leaves that slot untouched; the public accessors are
total and never surface a `StoreError`. -/
theorem C8_store_failures :
    (∀ (store : Store) e, getVerseCacheE store = .error e →
        getVerseCache store = [])
    ∧ (∀ (store : Store) c, getVerseCacheE store = .ok c →
        getVerseCache store = c)
    ∧ (∀ (store : Store) e, getVerseCacheMetadataE store = .error e →
        getVerseCacheMetadata store = ⟨0, []⟩)
    ∧ (∀ (store : Store) m, getVerseCacheMetadataE store = .ok m →
        getVerseCacheMetadata store = m)
    ∧ (∀ (store : Store) e, getAudioCacheE store = .error e →
        getAudioCache store = [])
    ∧ (∀ (store : Store) a, getAudioCacheE store = .ok a →
        getAudioCache store = a)
    ∧ (∀ store : Store, getItem store VERSE_CACHE_KEY = none →
        getVerseCache store = [])
    ∧ (∀ (store : Store) ok2 c m,
        setVerseCacheE store false ok2 c m = .error .writeFailure
        ∧ setVerseCache store false ok2 c m = store)
    ∧ (∀ (store : Store) c m,
        setVerseCacheE store true false c m = .error .writeFailure
        ∧ objGet (setVerseCache store true false c m)
            VERSE_CACHE_METADATA_KEY = objGet store VERSE_CACHE_METADATA_KEY)
    ∧ (∀ (store : Store) a, setAudioCache store false a = store) := by
  refine ⟨?_, ?_, ?_, ?_, ?_, ?_, ?_, ?_, ?_, ?_⟩
  · intro store e h
    unfold getVerseCache
    rw [h]
  · intro store c h
    unfold getVerseCache
    rw [h]
  · intro store e h
    unfold getVerseCacheMetadata
    rw [h]
  · intro store m h
    unfold getVerseCacheMetadata
    rw [h]
  · intro store e h
    unfold getAudioCache
    rw [h]
  · intro store a h
    unfold getAudioCache
    rw [h]
  · intro store h
    unfold getVerseCache getVerseCacheE
    rw [h]
  · intro store ok2 c m
    exact ⟨rfl, rfl⟩
  · intro store c m
    refine ⟨rfl, ?_⟩
    show objGet (objSet store VERSE_CACHE_KEY (.verseVal c))
      VERSE_CACHE_METADATA_KEY = objGet store VERSE_CACHE_METADATA_KEY
    exact objGet_objSet_ne _ _ _ _ (Ne.symm vkey_ne_mkey)
  · intro store a
    rfl

/-- C8 witness: a corrupt verse slot reads back as the empty mapping. -/
theorem C8_store_failures_witness :
    getVerseCache [(VERSE_CACHE_KEY, StoredVal.corrupt)] = [] :=
  C8_store_failures.1 [(VERSE_CACHE_KEY, StoredVal.corrupt)]
    StoreError.readFailure rfl

/-- C10: the two cache halves use disjoint storage slots: every bounded
verse-cache operation leaves the audio slot (raw and parsed) unchanged, and
every expiring audio-cache operation leaves both verse slots unchanged. -/
theorem C10_slot_disjointness :
    (∀ (store : Store) ok1 ok2 book chapter bibleVersion now,
      objGet (getCachedVersesS store ok1 ok2 book chapter bibleVersion
          now).2 AUDIO_CACHE_KEY = objGet store AUDIO_CACHE_KEY
      ∧ getAudioCache (getCachedVersesS store ok1 ok2 book chapter
          bibleVersion now).2 = getAudioCache store)
    ∧ (∀ (store : Store) ok1 ok2 book chapter bibleVersion verses now,
        objGet (cacheVersesS store ok1 ok2 book chapter bibleVersion verses
          now) AUDIO_CACHE_KEY = objGet store AUDIO_CACHE_KEY
        ∧ getAudioCache (cacheVersesS store ok1 ok2 book chapter
            bibleVersion verses now) = getAudioCache store)
    ∧ (∀ store : Store,
        objGet (clearVerseCacheS store) AUDIO_CACHE_KEY =
          objGet store AUDIO_CACHE_KEY
        ∧ getAudioCache (clearVerseCacheS store) = getAudioCache store)
    ∧ (∀ (store : Store) ok book chapter bibleVersion now,
        objGet (getCachedAudioUrlS store ok book chapter bibleVersion
            now).2 VERSE_CACHE_KEY = objGet store VERSE_CACHE_KEY
        ∧ objGet (getCachedAudioUrlS store ok book chapter bibleVersion
            now).2 VERSE_CACHE_METADATA_KEY =
          objGet store VERSE_CACHE_METADATA_KEY
        ∧ getVerseCache (getCachedAudioUrlS store ok book chapter
            bibleVersion now).2 = getVerseCache store
        ∧ getVerseCacheMetadata (getCachedAudioUrlS store ok book chapter
            bibleVersion now).2 = getVerseCacheMetadata store)
    ∧ (∀ (store : Store) ok book chapter bibleVersion audioUrl urlExpires
          now duration fileSize,
        objGet (cacheAudioUrlS store ok book chapter bibleVersion audioUrl
            urlExpires now duration fileSize) VERSE_CACHE_KEY =
          objGet store VERSE_CACHE_KEY
        ∧ objGet (cacheAudioUrlS store ok book chapter bibleVersion
            audioUrl urlExpires now duration fileSize)
            VERSE_CACHE_METADATA_KEY = objGet store VERSE_CACHE_METADATA_KEY
        ∧ getVerseCache (cacheAudioUrlS store ok book chapter bibleVersion
            audioUrl urlExpires now duration fileSize) =
          getVerseCache store
        ∧ getVerseCacheMetadata (cacheAudioUrlS store ok book chapter
            bibleVersion audioUrl urlExpires now duration fileSize) =
          getVerseCacheMetadata store)
    ∧ (∀ store : Store,
        objGet (clearAudioCacheS store) VERSE_CACHE_KEY =
          objGet store VERSE_CACHE_KEY
        ∧ objGet (clearAudioCacheS store) VERSE_CACHE_METADATA_KEY =
          objGet store VERSE_CACHE_METADATA_KEY
        ∧ getVerseCache (clearAudioCacheS store) = getVerseCache store
        ∧ getVerseCacheMetadata (clearAudioCacheS store) =
          getVerseCacheMetadata store)
    ∧ (∀ (store : Store) ok now,
        objGet (clearExpiredAudioUrlsS store ok now) VERSE_CACHE_KEY =
          objGet store VERSE_CACHE_KEY
        ∧ objGet (clearExpiredAudioUrlsS store ok now)
            VERSE_CACHE_METADATA_KEY = objGet store VERSE_CACHE_METADATA_KEY
        ∧ getVerseCache (clearExpiredAudioUrlsS store ok now) =
          getVerseCache store
        ∧ getVerseCacheMetadata (clearExpiredAudioUrlsS store ok now) =
          getVerseCacheMetadata store) := by
  have hgv : ∀ (store : Store) ok1 ok2 book chapter bibleVersion now,
      objGet (getCachedVersesS store ok1 ok2 book chapter bibleVersion
        now).2 AUDIO_CACHE_KEY = objGet store AUDIO_CACHE_KEY := by
    intro store ok1 ok2 book chapter bibleVersion now
    simp only [getCachedVersesS]
    rcases (getCachedVersesCore book chapter bibleVersion now
        (getVerseCache store) (getVerseCacheMetadata store)).1 with _ | l
    · rfl
    · exact setVerseCache_frame store ok1 ok2 _ _ _
        (Ne.symm vkey_ne_akey) (Ne.symm mkey_ne_akey)
  have hga : ∀ (store : Store) ok book chapter bibleVersion now,
      objGet (getCachedAudioUrlS store ok book chapter bibleVersion now).2
          VERSE_CACHE_KEY = objGet store VERSE_CACHE_KEY
      ∧ objGet (getCachedAudioUrlS store ok book chapter bibleVersion
          now).2 VERSE_CACHE_METADATA_KEY =
        objGet store VERSE_CACHE_METADATA_KEY := by
    intro store ok book chapter bibleVersion now
    simp only [getCachedAudioUrlS]
    rcases (getCachedAudioUrlCore book chapter bibleVersion now
        (getAudioCache store)).2.2 with _ | _
    · exact ⟨rfl, rfl⟩
    · exact ⟨setAudioCache_frame store ok _ _ vkey_ne_akey,
        setAudioCache_frame store ok _ _ mkey_ne_akey⟩
  have hce : ∀ (store : Store) ok now,
      objGet (clearExpiredAudioUrlsS store ok now) VERSE_CACHE_KEY =
        objGet store VERSE_CACHE_KEY
      ∧ objGet (clearExpiredAudioUrlsS store ok now)
          VERSE_CACHE_METADATA_KEY = objGet store VERSE_CACHE_METADATA_KEY
      := by
    intro store ok now
    simp only [clearExpiredAudioUrlsS]
    rcases (clearExpiredCore now (getAudioCache store)).2 with _ | _
    · exact ⟨rfl, rfl⟩
    · exact ⟨setAudioCache_frame store ok _ _ vkey_ne_akey,
        setAudioCache_frame store ok _ _ mkey_ne_akey⟩
  refine ⟨?_, ?_, ?_, ?_, ?_, ?_, ?_⟩
  · intro store ok1 ok2 book chapter bibleVersion now
    exact ⟨hgv store ok1 ok2 book chapter bibleVersion now,
      getAudioCache_congr _ _
        (hgv store ok1 ok2 book chapter bibleVersion now)⟩
  · intro store ok1 ok2 book chapter bibleVersion verses now
    have h : objGet (cacheVersesS store ok1 ok2 book chapter bibleVersion
        verses now) AUDIO_CACHE_KEY = objGet store AUDIO_CACHE_KEY :=
      setVerseCache_frame store ok1 ok2 _ _ _
        (Ne.symm vkey_ne_akey) (Ne.symm mkey_ne_akey)
    exact ⟨h, getAudioCache_congr _ _ h⟩
  · intro store
    have h : objGet (clearVerseCacheS store) AUDIO_CACHE_KEY =
        objGet store AUDIO_CACHE_KEY := by
      unfold clearVerseCacheS
      rw [removeItem_frame _ _ _ (Ne.symm mkey_ne_akey),
        removeItem_frame _ _ _ (Ne.symm vkey_ne_akey)]
    exact ⟨h, getAudioCache_congr _ _ h⟩
  · intro store ok book chapter bibleVersion now
    obtain ⟨ha, hb⟩ := hga store ok book chapter bibleVersion now
    exact ⟨ha, hb, getVerseCache_congr _ _ ha,
      getVerseCacheMetadata_congr _ _ hb⟩
  · intro store ok book chapter bibleVersion audioUrl urlExpires now
      duration fileSize
    have ha : objGet (cacheAudioUrlS store ok book chapter bibleVersion
        audioUrl urlExpires now duration fileSize) VERSE_CACHE_KEY =
        objGet store VERSE_CACHE_KEY :=
      setAudioCache_frame store ok _ _ vkey_ne_akey
    have hb : objGet (cacheAudioUrlS store ok book chapter bibleVersion
        audioUrl urlExpires now duration fileSize)
        VERSE_CACHE_METADATA_KEY = objGet store VERSE_CACHE_METADATA_KEY :=
      setAudioCache_frame store ok _ _ mkey_ne_akey
    exact ⟨ha, hb, getVerseCache_congr _ _ ha,
      getVerseCacheMetadata_congr _ _ hb⟩
  · intro store
    have ha : objGet (clearAudioCacheS store) VERSE_CACHE_KEY =
        objGet store VERSE_CACHE_KEY :=
      removeItem_frame _ _ _ vkey_ne_akey
    have hb : objGet (clearAudioCacheS store) VERSE_CACHE_METADATA_KEY =
        objGet store VERSE_CACHE_METADATA_KEY :=
      removeItem_frame _ _ _ mkey_ne_akey
    exact ⟨ha, hb, getVerseCache_congr _ _ ha,
      getVerseCacheMetadata_congr _ _ hb⟩
  · intro store ok now
    obtain ⟨ha, hb⟩ := hce store ok now
    exact ⟨ha, hb, getVerseCache_congr _ _ ha,
      getVerseCacheMetadata_congr _ _ hb⟩

end BibleCache
